import Mathlib

set_option maxRecDepth 8000

/-!
# Water-region pathfinding: a shallow embedding

This development embeds the water-region subsystem of the OpenTTD fork
(`src/pathfinder/water_regions.cpp`, `src/pathfinder/yapf/yapf_ship.cpp`,
`src/pathfinder/yapf/yapf_ship_regions.cpp`) in Lean and proves the spec
claims about it.

The map/terrain layer is an external collaborator per the spec; it is
abstracted as a structure of pure query functions (`WaterMap` below):
the navigable-trackdir bitmask of a tile and the track-follow resolution
of one exit trackdir.  Everything computed by the subsystem itself
(connected-component labeling, edge-traversability bits, aqueduct flags,
invalidation, pathfinder cost rules) is translated from the source.
-/

/-- A map tile addressed by its (x, y) coordinates, `TileX`/`TileY` of the
packed `TileIndex`. -/
abbrev Tile := Int × Int

/-- Result of `CFollowTrackWater::Follow`: the reached tile, whether the move
crossed via a bridge (aqueduct), and how many tiles the move skipped. -/
structure FollowRes where
  newTile : Tile
  isBridge : Bool
  tilesSkipped : Nat
deriving DecidableEq, Repr

/-- The external map/track collaborator.  `trackdirBits t` is the value of
`TrackBitsToTrackdirBits (GetWaterTracks t)` (a 16-bit trackdir bitmask);
`follow t d` is `CFollowTrackWater::Follow (t, d)`, `none` when the follower
reports no usable continuation. -/
structure WaterMap where
  trackdirBits : Tile → Nat
  follow : Tile → Nat → Option FollowRes

/-- The 16-bit navigable trackdir bitmask of a tile (`TrackdirBits` is a
16-bit value in the source; the reduction makes that explicit). -/
def wt (m : WaterMap) (t : Tile) : Nat := m.trackdirBits t % 65536

/-- `SetTrackdirBitIterator` enumerates the set bits of a trackdir bitmask in
ascending order. -/
def trackdirList (bits : Nat) : List Nat := (List.range 16).filter bits.testBit

/-- `WATER_REGION_EDGE_LENGTH`: fixed by
`static_assert(sizeof(TWaterRegionTraversabilityBits) * 8 == WATER_REGION_EDGE_LENGTH)`
with 16-bit traversability words. -/
def WATER_REGION_EDGE_LENGTH : Nat := 16

/-- `OrthogonalTileArea::Contains` for the square of region (rx, ry). -/
def containsB (rx ry : Int) (t : Tile) : Bool :=
  (16 * rx ≤ t.1 && t.1 < 16 * rx + 16) && (16 * ry ≤ t.2 && t.2 < 16 * ry + 16)

/-- The tile of region (rx, ry) with local index `i` (inverse of
`WaterRegion::GetLocalIndex`; x varies fastest). -/
def tileOfLocal (rx ry : Int) (i : Fin 256) : Tile :=
  (16 * rx + (i.val % 16 : Nat), 16 * ry + (i.val / 16 : Nat))

/-- `WaterRegion::GetLocalIndex`: local index of a tile within region
(rx, ry), as a natural number. -/
def localNat (rx ry : Int) (t : Tile) : Nat :=
  ((t.1 - 16 * rx) + 16 * (t.2 - 16 * ry)).toNat

theorem localNat_lt (rx ry : Int) (t : Tile) (h : containsB rx ry t = true) :
    localNat rx ry t < 256 := by
  simp only [containsB, Bool.and_eq_true, decide_eq_true_eq] at h
  unfold localNat
  omega

/-- Local index of a tile within region (rx, ry) when it is contained in the
region, `none` otherwise. -/
def localOf? (rx ry : Int) (t : Tile) : Option (Fin 256) :=
  if h : containsB rx ry t = true then some ⟨localNat rx ry t, localNat_lt rx ry t h⟩
  else none

theorem containsB_tileOfLocal (rx ry : Int) (i : Fin 256) :
    containsB rx ry (tileOfLocal rx ry i) = true := by
  have h1 : i.val % 16 < 16 := Nat.mod_lt _ (by norm_num)
  have h2 : i.val / 16 < 16 := Nat.div_lt_of_lt_mul (by omega)
  simp only [containsB, tileOfLocal, Bool.and_eq_true, decide_eq_true_eq]
  omega

theorem localNat_tileOfLocal (rx ry : Int) (i : Fin 256) :
    localNat rx ry (tileOfLocal rx ry i) = i.val := by
  have h3 : i.val % 16 + 16 * (i.val / 16) = i.val := by
    have := Nat.mod_add_div i.val 16
    omega
  simp only [localNat, tileOfLocal]
  omega

theorem localOf?_tileOfLocal (rx ry : Int) (i : Fin 256) :
    localOf? rx ry (tileOfLocal rx ry i) = some i := by
  simp only [localOf?, containsB_tileOfLocal, dite_true]
  congr 1
  exact Fin.ext (localNat_tileOfLocal rx ry i)

theorem tileOfLocal_localNat (rx ry : Int) (t : Tile) (h : containsB rx ry t = true) :
    tileOfLocal rx ry ⟨localNat rx ry t, localNat_lt rx ry t h⟩ = t := by
  simp only [containsB, Bool.and_eq_true, decide_eq_true_eq] at h
  obtain ⟨⟨h1, h2⟩, h3, h4⟩ := h
  have hx : (t.1 - 16 * rx).toNat < 16 := by omega
  have hy : (t.2 - 16 * ry).toNat < 16 := by omega
  have hsplit : localNat rx ry t = (t.1 - 16 * rx).toNat + 16 * (t.2 - 16 * ry).toNat := by
    unfold localNat; omega
  have hmod : localNat rx ry t % 16 = (t.1 - 16 * rx).toNat := by
    rw [hsplit, Nat.add_mul_mod_self_left, Nat.mod_eq_of_lt hx]
  have hdiv : localNat rx ry t / 16 = (t.2 - 16 * ry).toNat := by
    rw [hsplit, Nat.add_mul_div_left _ _ (by norm_num : 0 < 16), Nat.div_eq_of_lt hx, Nat.zero_add]
  simp only [tileOfLocal, hmod, hdiv]
  have : t = (t.1, t.2) := rfl
  rw [this, Prod.mk.injEq]
  constructor <;> omega

theorem localOf?_eq_some (rx ry : Int) (t : Tile) (j : Fin 256) :
    localOf? rx ry t = some j ↔ containsB rx ry t = true ∧ tileOfLocal rx ry j = t := by
  constructor
  · intro h
    unfold localOf? at h
    split at h
    · rename_i hc
      refine ⟨hc, ?_⟩
      cases h
      exact tileOfLocal_localNat rx ry t hc
    · cases h
  · rintro ⟨hc, rfl⟩
    exact localOf?_tileOfLocal rx ry j

/-- `DiagdirBetweenTiles`: 0 = NE (toward x-), 1 = SE (toward y+),
2 = SW (toward x+), 3 = NW (toward y-), 4 = `INVALID_DIAGDIR`. -/
def diagdirBetweenTiles (a b : Tile) : Nat :=
  if b.1 - a.1 = 0 then (if b.2 - a.2 = 0 then 4 else if b.2 - a.2 < 0 then 3 else 1)
  else if b.2 - a.2 ≠ 0 then 4
  else if b.1 - a.1 < 0 then 0 else 2

/-- The local coordinate stored with an edge crossing:
`DiagDirToAxis side == AXIS_X ? TileY(tile) - TileY(area) : TileX(tile) - TileX(area)`
(`DiagDirToAxis d = d & 1`, with 0 = `AXIS_X`). -/
def edgePosNat (rx ry : Int) (src : Tile) (side : Nat) : Nat :=
  if side % 2 = 0 then (src.2 - 16 * ry).toNat else (src.1 - 16 * rx).toNat

/-- Working state of the connected-component labeling inside `ForceUpdate`:
per-local-tile patch labels (0 = `WATER_REGION_PATCH_LABEL_NONE`), the four
edge-traversability bitmasks, and the cross-region-aqueduct flag. -/
structure CCLState where
  labels : Fin 256 → Nat
  edgeBits : Fin 4 → Nat
  aqueduct : Bool

/-- `SetBit (edge_traversability_bits[side], pos)`; out-of-range sides
(the `INVALID_DIAGDIR` case the source asserts against) leave the state
unchanged. -/
def setEdgeBit (st : CCLState) (side : Nat) (pos : Nat) : CCLState :=
  if h : side < 4 then
    { st with edgeBits :=
        Function.update st.edgeBits ⟨side, h⟩ (st.edgeBits ⟨side, h⟩ ||| (1 <<< pos)) }
  else st

/-- All successful `CFollowTrackWater::Follow` results out of the tile with
local index `i`, in trackdir-bit order. -/
def followResults (m : WaterMap) (rx ry : Int) (i : Fin 256) : List FollowRes :=
  (trackdirList (wt m (tileOfLocal rx ry i))).filterMap (m.follow (tileOfLocal rx ry i))

/-- The in-region follow destinations of tile `i`: exactly the tiles pushed on
the flood-fill stack when tile `i` is labeled. -/
def pushesOf (m : WaterMap) (rx ry : Int) (i : Fin 256) : List (Fin 256) :=
  (followResults m rx ry i).filterMap (fun r => localOf? rx ry r.newTile)

/-- The out-of-region bookkeeping performed for one labeled tile `src`: every
follow result leaving the region either sets an edge-traversability bit (plain
crossing) or raises the aqueduct flag (bridge crossing).  In-region results
are handled by the stack (see `pushesOf`), not here. -/
def applyCrossings (rx ry : Int) (src : Tile) : List FollowRes → CCLState → CCLState
  | [], st => st
  | r :: rest, st =>
    if containsB rx ry r.newTile then applyCrossings rx ry src rest st
    else if r.isBridge = false then
      applyCrossings rx ry src rest
        (setEdgeBit st (diagdirBetweenTiles src r.newTile)
          (edgePosNat rx ry src (diagdirBetweenTiles src r.newTile)))
    else applyCrossings rx ry src rest { st with aqueduct := true }

theorem applyCrossings_labels (rx ry : Int) (src : Tile) :
    ∀ (rs : List FollowRes) (st : CCLState),
      (applyCrossings rx ry src rs st).labels = st.labels := by
  intro rs
  induction rs with
  | nil => intro st; rfl
  | cons r rest ih =>
    intro st
    unfold applyCrossings
    split
    · exact ih st
    · split
      · rw [ih]
        unfold setEdgeBit
        split <;> rfl
      · exact ih _

/-- Number of local tiles still carrying label `NONE`; the well-founded
measure of the flood fill. -/
def unlabeledCount (f : Fin 256 → Nat) : Nat :=
  (Finset.univ.filter (fun i => f i = 0)).card

theorem unlabeledCount_update_lt (f : Fin 256 → Nat) (i : Fin 256) (l : Nat)
    (hf : f i = 0) (hl : 0 < l) :
    unlabeledCount (Function.update f i l) < unlabeledCount f := by
  apply Finset.card_lt_card
  constructor
  · intro x hx
    simp only [Finset.mem_filter, Finset.mem_univ, true_and] at hx ⊢
    by_cases hxi : x = i
    · subst hxi
      rw [Function.update_same] at hx
      omega
    · rwa [Function.update_noteq hxi] at hx
  · intro hsub
    have : i ∈ Finset.univ.filter (fun j => f j = 0) := by
      simp only [Finset.mem_filter, Finset.mem_univ, true_and]; exact hf
    have := hsub this
    simp only [Finset.mem_filter, Finset.mem_univ, true_and, Function.update_same] at this
    omega

theorem pushesOf_length_le (m : WaterMap) (rx ry : Int) (i : Fin 256) :
    (pushesOf m rx ry i).length ≤ 16 := by
  calc (pushesOf m rx ry i).length
      ≤ (followResults m rx ry i).length := List.length_filterMap_le _ _
    _ ≤ (trackdirList (wt m (tileOfLocal rx ry i))).length := List.length_filterMap_le _ _
    _ ≤ (List.range 16).length := List.length_filter_le _ _
    _ = 16 := List.length_range 16

/-- The stack-based flood fill inside `WaterRegion::ForceUpdate` for one
candidate label `l` (which is always ≥ `WATER_REGION_PATCH_LABEL_FIRST` = 1).
Pops the top of `tiles_to_check`; discards tiles without navigable trackdirs
and tiles already labeled; otherwise labels the tile, records its
out-of-region crossings and pushes its in-region follow destinations.
Returns the final state together with the `increase_label` flag. -/
def floodFill (m : WaterMap) (rx ry : Int) (l : Nat) (hl : 0 < l) :
    List (Fin 256) → CCLState → Bool → CCLState × Bool
  | [], st, inc => (st, inc)
  | i :: rest, st, inc =>
    if wt m (tileOfLocal rx ry i) = 0 then floodFill m rx ry l hl rest st inc
    else if st.labels i ≠ 0 then floodFill m rx ry l hl rest st inc
    else
      let st2 := applyCrossings rx ry (tileOfLocal rx ry i) (followResults m rx ry i)
        { st with labels := Function.update st.labels i l }
      floodFill m rx ry l hl ((pushesOf m rx ry i).reverse ++ rest) st2 true
termination_by stack st inc => 17 * unlabeledCount st.labels + stack.length
decreasing_by
  · simp only [List.length_cons]; omega
  · simp only [List.length_cons]; omega
  · simp only [List.length_cons, List.length_append, List.length_reverse,
      applyCrossings_labels]
    have h1 := pushesOf_length_le m rx ry i
    have h2 := unlabeledCount_update_lt st.labels i l (by omega) hl
    omega

/-- The externally visible state of one `WaterRegion`. -/
structure RegionState where
  labels : Fin 256 → Nat
  edgeBits : Fin 4 → Nat
  hasCrossRegionAqueducts : Bool
  numberOfPatches : Nat
  initialized : Bool

/-- Accumulator of the outer scan loop of `ForceUpdate`: the CCL working
state, `current_label` (always positive: it starts at
`WATER_REGION_PATCH_LABEL_FIRST` = 1 and only increments) and
`highest_assigned_label`. -/
structure OuterAcc where
  st : CCLState
  cur : {n : Nat // 0 < n}
  high : Nat

/-- One iteration of the outer scan loop of `ForceUpdate`: flood-fill from
`start`, then advance `current_label` and `highest_assigned_label` when the
round assigned the label to at least one tile. -/
def cclFoldStep (m : WaterMap) (rx ry : Int) (acc : OuterAcc) (start : Fin 256) : OuterAcc :=
  let res := floodFill m rx ry acc.cur.1 acc.cur.2 [start] acc.st false
  { st := res.1
    cur := if res.2 then ⟨acc.cur.1 + 1, Nat.succ_pos _⟩ else acc.cur
    high := if res.2 then acc.cur.1 else acc.high }

/-- Initial CCL state of `ForceUpdate`: labels filled with
`WATER_REGION_PATCH_LABEL_NONE`, edge bits zeroed, aqueduct flag cleared. -/
def initialCCLState : CCLState :=
  { labels := fun _ => 0, edgeBits := fun _ => 0, aqueduct := false }

/-- Initial accumulator of the outer scan loop: `current_label` starts at
`WATER_REGION_PATCH_LABEL_FIRST` = 1, `highest_assigned_label` at
`WATER_REGION_PATCH_LABEL_NONE` = 0. -/
def initialOuterAcc : OuterAcc :=
  { st := initialCCLState, cur := ⟨1, Nat.one_pos⟩, high := 0 }

/-- `WaterRegion::ForceUpdate` for region (rx, ry): scan all 256 tiles in
local-index order, flood-filling each unlabeled navigable component, then
publish `number_of_patches` and set `initialized`. -/
def forceUpdate (m : WaterMap) (rx ry : Int) : RegionState :=
  let acc := (List.finRange 256).foldl (cclFoldStep m rx ry) initialOuterAcc
  { labels := acc.st.labels
    edgeBits := acc.st.edgeBits
    hasCrossRegionAqueducts := acc.st.aqueduct
    numberOfPatches := acc.high
    initialized := true }

/-- `WaterRegion::GetLabel` (the source asserts containment; out-of-area
tiles read as `NONE`). -/
def getLabel (st : RegionState) (rx ry : Int) (t : Tile) : Nat :=
  match localOf? rx ry t with
  | some i => st.labels i
  | none => 0

/-- `WaterRegion::UpdateIfNotInitialized`: no-op when `initialized`,
otherwise recompute everything with `ForceUpdate`. -/
def updateIfNotInitialized (m : WaterMap) (rx ry : Int) (st : RegionState) : RegionState :=
  if st.initialized then st else forceUpdate m rx ry

/-- Whether a call to `UpdateIfNotInitialized` on a region in state `st`
re-runs the `ForceUpdate` scan (the spec's observable call counter would be
incremented exactly when this is true). -/
def updateRunsScan (st : RegionState) : Bool := !st.initialized

theorem forceUpdate_initialized (m : WaterMap) (rx ry : Int) :
    (forceUpdate m rx ry).initialized = true := rfl

/-- **C9.** `UpdateIfNotInitialized` is idempotent: a second call without an
intervening invalidation returns exactly the state of the first call (same
labels, edge bits, aqueduct flag and patch count), and the second call does
not re-run the flood-fill scan. -/
theorem updateIfNotInitialized_idempotent (m : WaterMap) (rx ry : Int) (st : RegionState) :
    updateIfNotInitialized m rx ry (updateIfNotInitialized m rx ry st)
      = updateIfNotInitialized m rx ry st
    ∧ updateRunsScan (updateIfNotInitialized m rx ry st) = false := by
  unfold updateIfNotInitialized updateRunsScan
  by_cases h : st.initialized
  · simp [h]
  · simp [h, forceUpdate_initialized]

theorem floodFill_nil (m : WaterMap) (rx ry : Int) (l : Nat) (hl : 0 < l)
    (st : CCLState) (inc : Bool) :
    floodFill m rx ry l hl [] st inc = (st, inc) := by
  rw [floodFill]

theorem floodFill_cons (m : WaterMap) (rx ry : Int) (l : Nat) (hl : 0 < l)
    (i : Fin 256) (rest : List (Fin 256)) (st : CCLState) (inc : Bool) :
    floodFill m rx ry l hl (i :: rest) st inc =
      if wt m (tileOfLocal rx ry i) = 0 then floodFill m rx ry l hl rest st inc
      else if st.labels i ≠ 0 then floodFill m rx ry l hl rest st inc
      else floodFill m rx ry l hl ((pushesOf m rx ry i).reverse ++ rest)
        (applyCrossings rx ry (tileOfLocal rx ry i) (followResults m rx ry i)
          { st with labels := Function.update st.labels i l }) true := by
  rw [floodFill]

/-- Local tile `i` carries navigable water tracks. -/
def navigableL (m : WaterMap) (rx ry : Int) (i : Fin 256) : Prop :=
  wt m (tileOfLocal rx ry i) ≠ 0

/-- One navigable track-follow move between two tiles of the region:
`j` is among the tiles pushed when `i` is processed. -/
def adjL (m : WaterMap) (rx ry : Int) (i j : Fin 256) : Prop :=
  j ∈ pushesOf m rx ry i

/-- Tile `i` is navigable and not yet labeled in `lab`. -/
def freeL (m : WaterMap) (rx ry : Int) (lab : Fin 256 → Nat) (i : Fin 256) : Prop :=
  navigableL m rx ry i ∧ lab i = 0

/-- A follow move between two currently free tiles. -/
def freeStep (m : WaterMap) (rx ry : Int) (lab : Fin 256 → Nat) (i j : Fin 256) : Prop :=
  freeL m rx ry lab i ∧ freeL m rx ry lab j ∧ adjL m rx ry i j

/-- The set of tiles that a flood-fill round started from `stack` will label:
free tiles reachable from a stack entry through free tiles. -/
def floodSet (m : WaterMap) (rx ry : Int) (lab : Fin 256 → Nat)
    (stack : List (Fin 256)) (j : Fin 256) : Prop :=
  freeL m rx ry lab j ∧ ∃ i ∈ stack, Relation.ReflTransGen (freeStep m rx ry lab) i j

/-- Tile `i` has a plain (non-bridge) out-of-region crossing recorded on side
`s` at local coordinate `p`. -/
def crossContrib (m : WaterMap) (rx ry : Int) (i : Fin 256) (s : Fin 4) (p : Nat) : Prop :=
  ∃ r ∈ followResults m rx ry i, containsB rx ry r.newTile = false ∧ r.isBridge = false ∧
    diagdirBetweenTiles (tileOfLocal rx ry i) r.newTile = s.val ∧
    p = edgePosNat rx ry (tileOfLocal rx ry i)
      (diagdirBetweenTiles (tileOfLocal rx ry i) r.newTile)

/-- Tile `i` has a bridge (aqueduct) crossing that leaves the region. -/
def bridgeContrib (m : WaterMap) (rx ry : Int) (i : Fin 256) : Prop :=
  ∃ r ∈ followResults m rx ry i, containsB rx ry r.newTile = false ∧ r.isBridge = true

theorem testBit_or_shift (x p q : Nat) :
    (x ||| (1 <<< p)).testBit q ↔ x.testBit q ∨ q = p := by
  rw [Nat.testBit_or]
  have h1 : (1 <<< p : Nat) = 2 ^ p := by
    rw [Nat.shiftLeft_eq, Nat.one_mul]
  rw [h1]
  rcases eq_or_ne q p with h | h
  · subst h
    simp [Nat.testBit_two_pow_self]
  · simp [Nat.testBit_two_pow_of_ne (Ne.symm h), h]

theorem setEdgeBit_labels (st : CCLState) (side pos : Nat) :
    (setEdgeBit st side pos).labels = st.labels := by
  unfold setEdgeBit; split <;> rfl

theorem setEdgeBit_aqueduct (st : CCLState) (side pos : Nat) :
    (setEdgeBit st side pos).aqueduct = st.aqueduct := by
  unfold setEdgeBit; split <;> rfl

theorem setEdgeBit_testBit (st : CCLState) (side pos : Nat) (s : Fin 4) (q : Nat) :
    ((setEdgeBit st side pos).edgeBits s).testBit q ↔
      (st.edgeBits s).testBit q ∨ (side = s.val ∧ q = pos) := by
  unfold setEdgeBit
  split
  · rename_i h
    dsimp only
    by_cases hs : (⟨side, h⟩ : Fin 4) = s
    · subst hs
      rw [Function.update_same, testBit_or_shift]
      tauto
    · rw [Function.update_noteq (fun hc => hs hc.symm)]
      have : side ≠ s.val := fun hc => hs (Fin.ext hc)
      tauto
  · rename_i h
    have : side ≠ s.val := by
      intro hc
      exact h (hc ▸ s.isLt)
    tauto

theorem applyCrossings_aqueduct (m : WaterMap) (rx ry : Int) (src : Tile) :
    ∀ (rs : List FollowRes) (st : CCLState),
      ((applyCrossings rx ry src rs st).aqueduct = true ↔
        st.aqueduct = true ∨ ∃ r ∈ rs, containsB rx ry r.newTile = false ∧ r.isBridge = true) := by
  intro rs
  induction rs with
  | nil => intro st; simp [applyCrossings]
  | cons r rest ih =>
    intro st
    unfold applyCrossings
    split
    · rename_i hc
      rw [ih, List.exists_mem_cons_iff]
      have hnp : ¬ (containsB rx ry r.newTile = false ∧ r.isBridge = true) := by
        rw [hc]; simp
      tauto
    · split
      · rename_i hc hb
        rw [ih, setEdgeBit_aqueduct, List.exists_mem_cons_iff]
        have hnp : ¬ (containsB rx ry r.newTile = false ∧ r.isBridge = true) := by
          rw [hb]; simp
        tauto
      · rename_i hc hb
        rw [ih, List.exists_mem_cons_iff]
        have h1 : containsB rx ry r.newTile = false := by
          revert hc; cases containsB rx ry r.newTile <;> simp
        have h2 : r.isBridge = true := by
          revert hb; cases r.isBridge <;> simp
        simp [h1, h2]

theorem applyCrossings_testBit (rx ry : Int) (src : Tile) (s : Fin 4) (q : Nat) :
    ∀ (rs : List FollowRes) (st : CCLState),
      (((applyCrossings rx ry src rs st).edgeBits s).testBit q ↔
        ((st.edgeBits s).testBit q ∨
          ∃ r ∈ rs, containsB rx ry r.newTile = false ∧ r.isBridge = false ∧
            diagdirBetweenTiles src r.newTile = s.val ∧
            q = edgePosNat rx ry src (diagdirBetweenTiles src r.newTile))) := by
  intro rs
  induction rs with
  | nil => intro st; simp [applyCrossings]
  | cons r rest ih =>
    intro st
    unfold applyCrossings
    split
    · rename_i hc
      rw [ih, List.exists_mem_cons_iff]
      constructor
      · rintro (h | h)
        · exact Or.inl h
        · exact Or.inr (Or.inr h)
      · rintro (h | h | h)
        · exact Or.inl h
        · rw [hc] at h
          exact absurd h.1 (by simp)
        · exact Or.inr h
    · split
      · rename_i hc hb
        rw [ih, setEdgeBit_testBit, List.exists_mem_cons_iff]
        have h1 : containsB rx ry r.newTile = false := by
          revert hc; cases containsB rx ry r.newTile <;> simp
        constructor
        · rintro ((h | h) | h)
          · exact Or.inl h
          · exact Or.inr (Or.inl ⟨h1, hb, h.1, h.2⟩)
          · exact Or.inr (Or.inr h)
        · rintro (h | h | h)
          · exact Or.inl (Or.inl h)
          · exact Or.inl (Or.inr ⟨h.2.2.1, h.2.2.2⟩)
          · exact Or.inr h
      · rename_i hc hb
        rw [ih, List.exists_mem_cons_iff]
        have h2 : r.isBridge = true := by
          revert hb; cases r.isBridge <;> simp
        constructor
        · rintro (h | h)
          · exact Or.inl h
          · exact Or.inr (Or.inr h)
        · rintro (h | h | h)
          · exact Or.inl h
          · rw [h2] at h
            exact absurd h.2.1 (by simp)
          · exact Or.inr h

theorem freeL_update (m : WaterMap) (rx ry : Int) (lab : Fin 256 → Nat) (l : Nat)
    (hl : 0 < l) (i x : Fin 256) :
    freeL m rx ry (Function.update lab i l) x ↔ (freeL m rx ry lab x ∧ x ≠ i) := by
  unfold freeL
  by_cases hxi : x = i
  · subst hxi
    rw [Function.update_same]
    constructor
    · rintro ⟨-, h⟩; omega
    · rintro ⟨-, h⟩; exact absurd rfl h
  · rw [Function.update_noteq hxi]
    constructor
    · rintro ⟨h1, h2⟩; exact ⟨⟨h1, h2⟩, hxi⟩
    · rintro ⟨⟨h1, h2⟩, -⟩; exact ⟨h1, h2⟩

theorem freeStep_update_imp (m : WaterMap) (rx ry : Int) (lab : Fin 256 → Nat) (l : Nat)
    (hl : 0 < l) (i x y : Fin 256)
    (h : freeStep m rx ry (Function.update lab i l) x y) : freeStep m rx ry lab x y := by
  obtain ⟨hx, hy, hadj⟩ := h
  exact ⟨((freeL_update m rx ry lab l hl i x).mp hx).1,
    ((freeL_update m rx ry lab l hl i y).mp hy).1, hadj⟩

theorem floodSet_cons_of_not_free (m : WaterMap) (rx ry : Int) (lab : Fin 256 → Nat)
    (i : Fin 256) (rest : List (Fin 256)) (hni : ¬ freeL m rx ry lab i) (j : Fin 256) :
    floodSet m rx ry lab (i :: rest) j ↔ floodSet m rx ry lab rest j := by
  unfold floodSet
  constructor
  · rintro ⟨hf, s, hs, hch⟩
    rcases List.mem_cons.mp hs with rfl | hs'
    · rcases Relation.ReflTransGen.cases_head hch with rfl | ⟨c, hstep, -⟩
      · exact absurd hf hni
      · exact absurd hstep.1 hni
    · exact ⟨hf, s, hs', hch⟩
  · rintro ⟨hf, s, hs, hch⟩
    exact ⟨hf, s, List.mem_cons_of_mem _ hs, hch⟩

theorem freeChain_split (m : WaterMap) (rx ry : Int) (lab : Fin 256 → Nat) (l : Nat)
    (i : Fin 256) (s j : Fin 256)
    (hch : Relation.ReflTransGen (freeStep m rx ry lab) s j) (hj : j ≠ i) :
    (Relation.ReflTransGen (freeStep m rx ry (Function.update lab i l)) s j ∧ s ≠ i) ∨
    (∃ t, adjL m rx ry i t ∧ t ≠ i ∧
      Relation.ReflTransGen (freeStep m rx ry (Function.update lab i l)) t j) := by
  induction hch using Relation.ReflTransGen.head_induction_on with
  | refl => exact Or.inl ⟨Relation.ReflTransGen.refl, hj⟩
  | head hstep hch' ih =>
    rename_i a c
    rcases ih with ⟨hchu, hcne⟩ | hr
    · by_cases hai : a = i
      · subst hai
        exact Or.inr ⟨c, hstep.2.2, hcne, hchu⟩
      · refine Or.inl ⟨Relation.ReflTransGen.head ⟨?_, ?_, hstep.2.2⟩ hchu, hai⟩
        · exact ⟨hstep.1.1, by rw [Function.update_noteq hai]; exact hstep.1.2⟩
        · exact ⟨hstep.2.1.1, by rw [Function.update_noteq hcne]; exact hstep.2.1.2⟩
    · exact Or.inr hr

theorem floodSet_cons_label (m : WaterMap) (rx ry : Int) (lab : Fin 256 → Nat) (l : Nat)
    (hl : 0 < l) (i : Fin 256) (rest : List (Fin 256))
    (hfi : freeL m rx ry lab i) (j : Fin 256) :
    floodSet m rx ry lab (i :: rest) j ↔
      (j = i ∨ floodSet m rx ry (Function.update lab i l)
        ((pushesOf m rx ry i).reverse ++ rest) j) := by
  constructor
  · rintro ⟨hfj, s, hs, hch⟩
    by_cases hji : j = i
    · exact Or.inl hji
    · right
      have hfj' : freeL m rx ry (Function.update lab i l) j := by
        rw [freeL_update m rx ry lab l hl]
        exact ⟨hfj, hji⟩
      rcases freeChain_split m rx ry lab l i s j hch hji with ⟨hchu, hsne⟩ | ⟨t, hadj, htne, hchu⟩
      · rcases List.mem_cons.mp hs with rfl | hs'
        · exact absurd rfl hsne
        · exact ⟨hfj', s, List.mem_append_right _ hs', hchu⟩
      · refine ⟨hfj', t, List.mem_append_left _ ?_, hchu⟩
        rw [List.mem_reverse]
        exact hadj
  · rintro (rfl | ⟨hfj, s, hs, hch⟩)
    · exact ⟨hfi, j, List.mem_cons_self j rest, Relation.ReflTransGen.refl⟩
    · have hfj' := (freeL_update m rx ry lab l hl i j).mp hfj
      have hch' : Relation.ReflTransGen (freeStep m rx ry lab) s j :=
        Relation.ReflTransGen.mono (fun a b => freeStep_update_imp m rx ry lab l hl i a b) hch
      have hfs : freeL m rx ry (Function.update lab i l) s := by
        rcases Relation.ReflTransGen.cases_head hch with rfl | ⟨c, hstep, -⟩
        · exact hfj
        · exact hstep.1
      have hfs' := (freeL_update m rx ry lab l hl i s).mp hfs
      rcases List.mem_append.mp hs with hsp | hsr
      · rw [List.mem_reverse] at hsp
        refine ⟨hfj'.1, i, List.mem_cons_self i rest, Relation.ReflTransGen.head ⟨hfi, hfs'.1, hsp⟩ hch'⟩
      · exact ⟨hfj'.1, s, List.mem_cons_of_mem _ hsr, hch'⟩

theorem floodSet_nil (m : WaterMap) (rx ry : Int) (lab : Fin 256 → Nat) (j : Fin 256) :
    ¬ floodSet m rx ry lab [] j := by
  rintro ⟨-, s, hs, -⟩
  exact List.not_mem_nil s hs

/-- Full characterization of one flood-fill run: which tiles get the label,
how the edge bits, the aqueduct flag and the `increase_label` flag change. -/
def FFSpec (m : WaterMap) (rx ry : Int) (l : Nat)
    (stack : List (Fin 256)) (st : CCLState) (inc : Bool) (res : CCLState × Bool) : Prop :=
  (∀ j, floodSet m rx ry st.labels stack j → res.1.labels j = l)
  ∧ (∀ j, ¬ floodSet m rx ry st.labels stack j → res.1.labels j = st.labels j)
  ∧ (∀ (s : Fin 4) (q : Nat), ((res.1.edgeBits s).testBit q ↔
      ((st.edgeBits s).testBit q ∨
        ∃ j, floodSet m rx ry st.labels stack j ∧ crossContrib m rx ry j s q)))
  ∧ (res.1.aqueduct = true ↔
      (st.aqueduct = true ∨ ∃ j, floodSet m rx ry st.labels stack j ∧ bridgeContrib m rx ry j))
  ∧ (res.2 = true ↔ (inc = true ∨ ∃ j, floodSet m rx ry st.labels stack j))

theorem FFSpec_base (m : WaterMap) (rx ry : Int) (l : Nat) (st : CCLState) (inc : Bool) :
    FFSpec m rx ry l [] st inc (st, inc) := by
  refine ⟨?_, ?_, ?_, ?_, ?_⟩
  · intro j hj
    exact (floodSet_nil m rx ry st.labels j hj).elim
  · intro j _
    rfl
  · intro s q
    constructor
    · intro h
      exact Or.inl h
    · rintro (h | hex)
      · exact h
      · exact hex.elim fun j hj => absurd hj.1 (floodSet_nil m rx ry st.labels j)
  · constructor
    · intro h
      exact Or.inl h
    · rintro (h | hex)
      · exact h
      · exact hex.elim fun j hj => absurd hj.1 (floodSet_nil m rx ry st.labels j)
  · constructor
    · intro h
      exact Or.inl h
    · rintro (h | hex)
      · exact h
      · exact hex.elim fun j hj => absurd hj (floodSet_nil m rx ry st.labels j)

theorem floodFill_spec (m : WaterMap) (rx ry : Int) (l : Nat) (hl : 0 < l) :
    ∀ (stack : List (Fin 256)) (st : CCLState) (inc : Bool),
      FFSpec m rx ry l stack st inc (floodFill m rx ry l hl stack st inc) := by
  suffices H : ∀ (n : Nat) (stack : List (Fin 256)) (st : CCLState) (inc : Bool),
      17 * unlabeledCount st.labels + stack.length ≤ n →
      FFSpec m rx ry l stack st inc (floodFill m rx ry l hl stack st inc) by
    intro stack st inc
    exact H (17 * unlabeledCount st.labels + stack.length) stack st inc le_rfl
  intro n
  induction n with
  | zero =>
    intro stack st inc hn
    have hstack : stack = [] := by
      cases stack with
      | nil => rfl
      | cons a as => simp [List.length_cons] at hn
    subst hstack
    rw [floodFill_nil]
    exact FFSpec_base m rx ry l st inc
  | succ n ihn =>
    intro stack st inc hn
    cases stack with
    | nil =>
      rw [floodFill_nil]
      exact FFSpec_base m rx ry l st inc
    | cons i rest =>
      rw [floodFill_cons]
      by_cases hw : wt m (tileOfLocal rx ry i) = 0
      · rw [if_pos hw]
        have hni : ¬ freeL m rx ry st.labels i := fun h => h.1 hw
        obtain ⟨ih1, ih2, ih3, ih4, ih5⟩ :=
          ihn rest st inc (by simp only [List.length_cons] at hn; omega)
        refine ⟨?_, ?_, ?_, ?_, ?_⟩
        · intro j hj
          exact ih1 j ((floodSet_cons_of_not_free m rx ry st.labels i rest hni j).mp hj)
        · intro j hj
          exact ih2 j (fun h =>
            hj ((floodSet_cons_of_not_free m rx ry st.labels i rest hni j).mpr h))
        · intro s q
          rw [ih3 s q]
          simp only [floodSet_cons_of_not_free m rx ry st.labels i rest hni]
        · rw [ih4]
          simp only [floodSet_cons_of_not_free m rx ry st.labels i rest hni]
        · rw [ih5]
          simp only [floodSet_cons_of_not_free m rx ry st.labels i rest hni]
      · rw [if_neg hw]
        by_cases hlab : st.labels i ≠ 0
        · rw [if_pos hlab]
          have hni : ¬ freeL m rx ry st.labels i := fun h => hlab h.2
          obtain ⟨ih1, ih2, ih3, ih4, ih5⟩ :=
            ihn rest st inc (by simp only [List.length_cons] at hn; omega)
          refine ⟨?_, ?_, ?_, ?_, ?_⟩
          · intro j hj
            exact ih1 j ((floodSet_cons_of_not_free m rx ry st.labels i rest hni j).mp hj)
          · intro j hj
            exact ih2 j (fun h =>
              hj ((floodSet_cons_of_not_free m rx ry st.labels i rest hni j).mpr h))
          · intro s q
            rw [ih3 s q]
            simp only [floodSet_cons_of_not_free m rx ry st.labels i rest hni]
          · rw [ih4]
            simp only [floodSet_cons_of_not_free m rx ry st.labels i rest hni]
          · rw [ih5]
            simp only [floodSet_cons_of_not_free m rx ry st.labels i rest hni]
        · rw [if_neg hlab]
          have hlab0 : st.labels i = 0 := by omega
          have hfi : freeL m rx ry st.labels i := ⟨hw, hlab0⟩
          have hproj : ({ st with labels := Function.update st.labels i l } : CCLState).labels
              = Function.update st.labels i l := rfl
          have hmeas : 17 * unlabeledCount
              (applyCrossings rx ry (tileOfLocal rx ry i) (followResults m rx ry i)
                { st with labels := Function.update st.labels i l }).labels +
              ((pushesOf m rx ry i).reverse ++ rest).length ≤ n := by
            rw [applyCrossings_labels, hproj]
            have h1 := unlabeledCount_update_lt st.labels i l hlab0 hl
            have h2 := pushesOf_length_le m rx ry i
            simp only [List.length_cons] at hn
            simp only [List.length_append, List.length_reverse]
            omega
          obtain ⟨ih1, ih2, ih3, ih4, ih5⟩ :=
            ihn ((pushesOf m rx ry i).reverse ++ rest)
              (applyCrossings rx ry (tileOfLocal rx ry i) (followResults m rx ry i)
                { st with labels := Function.update st.labels i l }) true hmeas
          rw [applyCrossings_labels, hproj] at ih1 ih2 ih3 ih4 ih5
          have hkey := floodSet_cons_label m rx ry st.labels l hl i rest hfi
          have hsplit : ∀ (P : Fin 256 → Prop),
              ((∃ j, floodSet m rx ry st.labels (i :: rest) j ∧ P j) ↔
                (P i ∨ ∃ j, floodSet m rx ry (Function.update st.labels i l)
                  ((pushesOf m rx ry i).reverse ++ rest) j ∧ P j)) := by
            intro P
            constructor
            · rintro ⟨j, hj, hP⟩
              rcases (hkey j).mp hj with heq | hS
              · rw [heq] at hP
                exact Or.inl hP
              · exact Or.inr ⟨j, hS, hP⟩
            · rintro (hP | ⟨j, hS, hP⟩)
              · exact ⟨i, (hkey i).mpr (Or.inl rfl), hP⟩
              · exact ⟨j, (hkey j).mpr (Or.inr hS), hP⟩
          refine ⟨?_, ?_, ?_, ?_, ?_⟩
          · intro j hj
            rcases (hkey j).mp hj with heq | hS
            · have hnS : ¬ floodSet m rx ry (Function.update st.labels i l)
                  ((pushesOf m rx ry i).reverse ++ rest) j := by
                rintro ⟨⟨-, hz⟩, -⟩
                rw [heq, Function.update_same] at hz
                omega
              rw [ih2 j hnS, heq]
              exact Function.update_same i l st.labels
            · exact ih1 j hS
          · intro j hj
            have hji : j ≠ i := fun h => hj ((hkey j).mpr (Or.inl h))
            have hnS : ¬ floodSet m rx ry (Function.update st.labels i l)
                ((pushesOf m rx ry i).reverse ++ rest) j :=
              fun h => hj ((hkey j).mpr (Or.inr h))
            rw [ih2 j hnS]
            exact Function.update_noteq hji l st.labels
          · intro s q
            have hbase := applyCrossings_testBit rx ry (tileOfLocal rx ry i) s q
              (followResults m rx ry i) { st with labels := Function.update st.labels i l }
            have hcontrib : (((applyCrossings rx ry (tileOfLocal rx ry i)
                (followResults m rx ry i)
                { st with labels := Function.update st.labels i l }).edgeBits s).testBit q ↔
                ((st.edgeBits s).testBit q ∨ crossContrib m rx ry i s q)) := hbase
            rw [ih3 s q, hcontrib, hsplit (fun j => crossContrib m rx ry j s q)]
            exact or_assoc
          · have hbase := applyCrossings_aqueduct m rx ry (tileOfLocal rx ry i)
              (followResults m rx ry i) { st with labels := Function.update st.labels i l }
            have hcontrib : ((applyCrossings rx ry (tileOfLocal rx ry i)
                (followResults m rx ry i)
                { st with labels := Function.update st.labels i l }).aqueduct = true ↔
                (st.aqueduct = true ∨ bridgeContrib m rx ry i)) := hbase
            rw [ih4, hcontrib, hsplit (fun j => bridgeContrib m rx ry j)]
            exact or_assoc
          · have hres2 := ih5.mpr (Or.inl rfl)
            exact iff_of_true hres2 (Or.inr ⟨i, (hkey i).mpr (Or.inl rfl)⟩)

/-- Reachability between local tiles through in-region track-follow moves. -/
def ReachL (m : WaterMap) (rx ry : Int) : Fin 256 → Fin 256 → Prop :=
  Relation.ReflTransGen (adjL m rx ry)

theorem floodSet_extend (m : WaterMap) (rx ry : Int) (lab : Fin 256 → Nat)
    (stack : List (Fin 256)) (i j : Fin 256) (hS : floodSet m rx ry lab stack i)
    (hfj : freeL m rx ry lab j) (hadj : adjL m rx ry i j) :
    floodSet m rx ry lab stack j := by
  obtain ⟨hfi, s, hs, hch⟩ := hS
  exact ⟨hfj, s, hs, hch.tail ⟨hfi, hfj, hadj⟩⟩

theorem floodSet_singleton_chain (m : WaterMap) (rx ry : Int) (lab : Fin 256 → Nat)
    (start j : Fin 256) (hS : floodSet m rx ry lab [start] j) :
    Relation.ReflTransGen (freeStep m rx ry lab) start j := by
  obtain ⟨-, s, hs, hch⟩ := hS
  rw [List.mem_singleton] at hs
  exact hs ▸ hch

theorem floodSet_singleton_self (m : WaterMap) (rx ry : Int) (lab : Fin 256 → Nat)
    (start : Fin 256) (hf : freeL m rx ry lab start) :
    floodSet m rx ry lab [start] start :=
  ⟨hf, start, List.mem_singleton.mpr rfl, Relation.ReflTransGen.refl⟩

theorem freeStep_chain_reach (m : WaterMap) (rx ry : Int) (lab : Fin 256 → Nat)
    (i j : Fin 256) (hch : Relation.ReflTransGen (freeStep m rx ry lab) i j) :
    ReachL m rx ry i j :=
  Relation.ReflTransGen.mono (fun _ _ h => h.2.2) hch

theorem reachL_symm (m : WaterMap) (rx ry : Int)
    (hsym : ∀ i j, adjL m rx ry i j → adjL m rx ry j i)
    (i j : Fin 256) (h : ReachL m rx ry i j) : ReachL m rx ry j i := by
  induction h with
  | refl => exact Relation.ReflTransGen.refl
  | tail _ hstep ih => exact Relation.ReflTransGen.head (hsym _ _ hstep) ih

/-- Invariant of the outer `ForceUpdate` scan loop after the first `k` start
tiles have been processed (no symmetry assumption on the track-follow
collaborator is needed for these). -/
structure BaseInv (m : WaterMap) (rx ry : Int) (k : Nat) (acc : OuterAcc) : Prop where
  cur_eq : acc.cur.1 = acc.high + 1
  lab_le : ∀ j, acc.st.labels j ≤ acc.high
  surj : ∀ l', 1 ≤ l' → l' ≤ acc.high → ∃ j, acc.st.labels j = l'
  nav_lab : ∀ j : Fin 256, j.val < k → navigableL m rx ry j → acc.st.labels j ≠ 0
  lab_nav : ∀ j, acc.st.labels j ≠ 0 → navigableL m rx ry j
  closedAdj : ∀ i j, acc.st.labels i ≠ 0 → adjL m rx ry i j → navigableL m rx ry j →
    acc.st.labels j ≠ 0
  edge_char : ∀ (s : Fin 4) (q : Nat), ((acc.st.edgeBits s).testBit q ↔
    ∃ j, acc.st.labels j ≠ 0 ∧ crossContrib m rx ry j s q)
  aq_char : (acc.st.aqueduct = true ↔ ∃ j, acc.st.labels j ≠ 0 ∧ bridgeContrib m rx ry j)

/-- The parts of the scan-loop invariant that need the track-follow moves
within the region to be symmetric. -/
structure SymInv (m : WaterMap) (rx ry : Int) (acc : OuterAcc) : Prop where
  eq_reach : ∀ i j, acc.st.labels i ≠ 0 → acc.st.labels i = acc.st.labels j →
    ReachL m rx ry i j
  adj_eq : ∀ i j, acc.st.labels i ≠ 0 → acc.st.labels j ≠ 0 → adjL m rx ry i j →
    acc.st.labels i = acc.st.labels j

theorem cclFoldStep_st (m : WaterMap) (rx ry : Int) (acc : OuterAcc) (start : Fin 256) :
    (cclFoldStep m rx ry acc start).st
      = (floodFill m rx ry acc.cur.1 acc.cur.2 [start] acc.st false).1 := rfl

theorem cclFoldStep_cur (m : WaterMap) (rx ry : Int) (acc : OuterAcc) (start : Fin 256) :
    (cclFoldStep m rx ry acc start).cur.1
      = if (floodFill m rx ry acc.cur.1 acc.cur.2 [start] acc.st false).2
        then acc.cur.1 + 1 else acc.cur.1 := by
  unfold cclFoldStep
  by_cases h : (floodFill m rx ry acc.cur.1 acc.cur.2 [start] acc.st false).2 <;> simp [h]

theorem cclFoldStep_high (m : WaterMap) (rx ry : Int) (acc : OuterAcc) (start : Fin 256) :
    (cclFoldStep m rx ry acc start).high
      = if (floodFill m rx ry acc.cur.1 acc.cur.2 [start] acc.st false).2
        then acc.cur.1 else acc.high := rfl

theorem cclFoldStep_BaseInv (m : WaterMap) (rx ry : Int) (k : Nat) (acc : OuterAcc)
    (start : Fin 256) (hstart : start.val = k) (hb : BaseInv m rx ry k acc) :
    BaseInv m rx ry (k + 1) (cclFoldStep m rx ry acc start) := by
  obtain ⟨sp1, sp2, sp3, sp4, sp5⟩ :=
    floodFill_spec m rx ry acc.cur.1 acc.cur.2 [start] acc.st false
  have hcurpos : 0 < acc.cur.1 := acc.cur.2
  have hlabS : ∀ j, floodSet m rx ry acc.st.labels [start] j →
      (cclFoldStep m rx ry acc start).st.labels j = acc.cur.1 := by
    intro j hj
    rw [cclFoldStep_st]
    exact sp1 j hj
  have hlabNS : ∀ j, ¬ floodSet m rx ry acc.st.labels [start] j →
      (cclFoldStep m rx ry acc start).st.labels j = acc.st.labels j := by
    intro j hj
    rw [cclFoldStep_st]
    exact sp2 j hj
  have spC : ∀ (s : Fin 4) (q : Nat),
      ((((cclFoldStep m rx ry acc start).st.edgeBits s).testBit q) ↔
        ((acc.st.edgeBits s).testBit q ∨
          ∃ j, floodSet m rx ry acc.st.labels [start] j ∧ crossContrib m rx ry j s q)) := by
    intro s q
    rw [cclFoldStep_st]
    exact sp3 s q
  have spD : ((cclFoldStep m rx ry acc start).st.aqueduct = true ↔
      (acc.st.aqueduct = true ∨
        ∃ j, floodSet m rx ry acc.st.labels [start] j ∧ bridgeContrib m rx ry j)) := by
    rw [cclFoldStep_st]
    exact sp4
  have hNSof : ∀ j, acc.st.labels j ≠ 0 → ¬ floodSet m rx ry acc.st.labels [start] j :=
    fun j h0 hj => h0 hj.1.2
  by_cases hex : ∃ j, floodSet m rx ry acc.st.labels [start] j
  · -- The round assigned the label to at least one tile.
    have hr : (floodFill m rx ry acc.cur.1 acc.cur.2 [start] acc.st false).2 = true :=
      sp5.mpr (Or.inr hex)
    have hlabiff : ∀ j, ((cclFoldStep m rx ry acc start).st.labels j ≠ 0 ↔
        (acc.st.labels j ≠ 0 ∨ floodSet m rx ry acc.st.labels [start] j)) := by
      intro j
      by_cases hj : floodSet m rx ry acc.st.labels [start] j
      · rw [hlabS j hj]
        constructor
        · intro _; exact Or.inr hj
        · intro _; omega
      · rw [hlabNS j hj]
        constructor
        · intro h; exact Or.inl h
        · rintro (h | h)
          · exact h
          · exact absurd h hj
    have hcur' : (cclFoldStep m rx ry acc start).cur.1 = acc.cur.1 + 1 := by
      simp [cclFoldStep_cur, hr]
    have hhigh' : (cclFoldStep m rx ry acc start).high = acc.cur.1 := by
      simp [cclFoldStep_high, hr]
    refine ⟨?_, ?_, ?_, ?_, ?_, ?_, ?_, ?_⟩
    · rw [hcur', hhigh']
    · intro j
      rw [hhigh']
      by_cases hj : floodSet m rx ry acc.st.labels [start] j
      · rw [hlabS j hj]
      · rw [hlabNS j hj]
        have := hb.lab_le j
        have := hb.cur_eq
        omega
    · intro l' hl1 hl2
      rw [hhigh'] at hl2
      rcases Nat.lt_or_ge l' acc.cur.1 with hlt | hge
      · have hle : l' ≤ acc.high := by have := hb.cur_eq; omega
        obtain ⟨j, hj⟩ := hb.surj l' hl1 hle
        refine ⟨j, ?_⟩
        rw [hlabNS j (hNSof j (by omega))]
        exact hj
      · have heq : l' = acc.cur.1 := by omega
        obtain ⟨j0, hj0⟩ := hex
        exact ⟨j0, by rw [hlabS j0 hj0, heq]⟩
    · intro j hjk hnav
      rw [hlabiff]
      rcases Nat.lt_or_ge j.val k with hlt | hge
      · exact Or.inl (hb.nav_lab j hlt hnav)
      · have hjs : j = start := Fin.ext (by omega)
        by_cases h0 : acc.st.labels j = 0
        · exact Or.inr (hjs ▸ floodSet_singleton_self m rx ry acc.st.labels start
            ⟨hjs ▸ hnav, hjs ▸ h0⟩)
        · exact Or.inl h0
    · intro j hj
      rcases (hlabiff j).mp hj with h | h
      · exact hb.lab_nav j h
      · exact h.1.1
    · intro i j hi hadj hnav
      rw [hlabiff] at hi ⊢
      rcases hi with h | h
      · exact Or.inl (hb.closedAdj i j h hadj hnav)
      · by_cases h0 : acc.st.labels j = 0
        · exact Or.inr (floodSet_extend m rx ry acc.st.labels [start] i j h ⟨hnav, h0⟩ hadj)
        · exact Or.inl h0
    · intro s q
      rw [spC s q, hb.edge_char s q]
      constructor
      · rintro (⟨j, hj0, hc⟩ | ⟨j, hjS, hc⟩)
        · exact ⟨j, (hlabiff j).mpr (Or.inl hj0), hc⟩
        · exact ⟨j, (hlabiff j).mpr (Or.inr hjS), hc⟩
      · rintro ⟨j, hj, hc⟩
        rcases (hlabiff j).mp hj with h | h
        · exact Or.inl ⟨j, h, hc⟩
        · exact Or.inr ⟨j, h, hc⟩
    · rw [spD, hb.aq_char]
      constructor
      · rintro (⟨j, hj0, hc⟩ | ⟨j, hjS, hc⟩)
        · exact ⟨j, (hlabiff j).mpr (Or.inl hj0), hc⟩
        · exact ⟨j, (hlabiff j).mpr (Or.inr hjS), hc⟩
      · rintro ⟨j, hj, hc⟩
        rcases (hlabiff j).mp hj with h | h
        · exact Or.inl ⟨j, h, hc⟩
        · exact Or.inr ⟨j, h, hc⟩
  · -- The round labeled nothing: the state is unchanged.
    have hr : (floodFill m rx ry acc.cur.1 acc.cur.2 [start] acc.st false).2 = false := by
      cases h : (floodFill m rx ry acc.cur.1 acc.cur.2 [start] acc.st false).2
      · rfl
      · rcases sp5.mp h with h' | h'
        · exact absurd h' (by simp)
        · exact absurd h' hex
    have hnoS : ∀ j, ¬ floodSet m rx ry acc.st.labels [start] j := fun j hj => hex ⟨j, hj⟩
    have hlab : ∀ j, (cclFoldStep m rx ry acc start).st.labels j = acc.st.labels j :=
      fun j => hlabNS j (hnoS j)
    have hcur' : (cclFoldStep m rx ry acc start).cur.1 = acc.cur.1 := by
      simp [cclFoldStep_cur, hr]
    have hhigh' : (cclFoldStep m rx ry acc start).high = acc.high := by
      simp [cclFoldStep_high, hr]
    refine ⟨?_, ?_, ?_, ?_, ?_, ?_, ?_, ?_⟩
    · rw [hcur', hhigh']
      exact hb.cur_eq
    · intro j
      rw [hlab, hhigh']
      exact hb.lab_le j
    · intro l' hl1 hl2
      rw [hhigh'] at hl2
      obtain ⟨j, hj⟩ := hb.surj l' hl1 hl2
      exact ⟨j, by rw [hlab]; exact hj⟩
    · intro j hjk hnav
      rw [hlab]
      rcases Nat.lt_or_ge j.val k with hlt | hge
      · exact hb.nav_lab j hlt hnav
      · have hjs : j = start := Fin.ext (by omega)
        intro h0
        exact hnoS start (hjs ▸ floodSet_singleton_self m rx ry acc.st.labels j ⟨hnav, h0⟩)
    · intro j hj
      rw [hlab] at hj
      exact hb.lab_nav j hj
    · intro i j hi hadj hnav
      rw [hlab] at hi ⊢
      exact hb.closedAdj i j hi hadj hnav
    · intro s q
      rw [spC s q, hb.edge_char s q]
      constructor
      · rintro (⟨j, hj0, hc⟩ | ⟨j, hjS, hc⟩)
        · exact ⟨j, by rw [hlab]; exact hj0, hc⟩
        · exact absurd hjS (hnoS j)
      · rintro ⟨j, hj, hc⟩
        rw [hlab] at hj
        exact Or.inl ⟨j, hj, hc⟩
    · rw [spD, hb.aq_char]
      constructor
      · rintro (⟨j, hj0, hc⟩ | ⟨j, hjS, hc⟩)
        · exact ⟨j, by rw [hlab]; exact hj0, hc⟩
        · exact absurd hjS (hnoS j)
      · rintro ⟨j, hj, hc⟩
        rw [hlab] at hj
        exact Or.inl ⟨j, hj, hc⟩

theorem cclFoldStep_SymInv (m : WaterMap) (rx ry : Int)
    (hsym : ∀ i j, adjL m rx ry i j → adjL m rx ry j i)
    (k : Nat) (acc : OuterAcc) (start : Fin 256)
    (hb : BaseInv m rx ry k acc) (hs : SymInv m rx ry acc) :
    SymInv m rx ry (cclFoldStep m rx ry acc start) := by
  obtain ⟨sp1, sp2, sp3, sp4, sp5⟩ :=
    floodFill_spec m rx ry acc.cur.1 acc.cur.2 [start] acc.st false
  have hcurpos : 0 < acc.cur.1 := acc.cur.2
  have hlabS : ∀ j, floodSet m rx ry acc.st.labels [start] j →
      (cclFoldStep m rx ry acc start).st.labels j = acc.cur.1 := by
    intro j hj
    rw [cclFoldStep_st]
    exact sp1 j hj
  have hlabNS : ∀ j, ¬ floodSet m rx ry acc.st.labels [start] j →
      (cclFoldStep m rx ry acc start).st.labels j = acc.st.labels j := by
    intro j hj
    rw [cclFoldStep_st]
    exact sp2 j hj
  have hNSof : ∀ j, acc.st.labels j ≠ 0 → ¬ floodSet m rx ry acc.st.labels [start] j :=
    fun j h0 hj => h0 hj.1.2
  -- A tile of the flood set is reachable from any other tile of the flood set.
  have hSS : ∀ i j, floodSet m rx ry acc.st.labels [start] i →
      floodSet m rx ry acc.st.labels [start] j → ReachL m rx ry i j := by
    intro i j hi hj
    have hci := freeStep_chain_reach m rx ry acc.st.labels start i
      (floodSet_singleton_chain m rx ry acc.st.labels start i hi)
    have hcj := freeStep_chain_reach m rx ry acc.st.labels start j
      (floodSet_singleton_chain m rx ry acc.st.labels start j hj)
    exact Relation.ReflTransGen.trans (reachL_symm m rx ry hsym start i hci) hcj
  constructor
  · intro i j hi heq
    by_cases hSi : floodSet m rx ry acc.st.labels [start] i
    · by_cases hSj : floodSet m rx ry acc.st.labels [start] j
      · exact hSS i j hSi hSj
      · exfalso
        rw [hlabS i hSi, hlabNS j hSj] at heq
        have := hb.lab_le j
        have := hb.cur_eq
        omega
    · by_cases hSj : floodSet m rx ry acc.st.labels [start] j
      · exfalso
        rw [hlabNS i hSi, hlabS j hSj] at heq
        have := hb.lab_le i
        have := hb.cur_eq
        omega
      · rw [hlabNS i hSi] at hi heq
        rw [hlabNS j hSj] at heq
        exact hs.eq_reach i j hi heq
  · intro i j hi hj hadj
    by_cases hSi : floodSet m rx ry acc.st.labels [start] i
    · by_cases hSj : floodSet m rx ry acc.st.labels [start] j
      · rw [hlabS i hSi, hlabS j hSj]
      · exfalso
        rw [hlabNS j hSj] at hj
        have hadj' := hsym i j hadj
        have hnavi : navigableL m rx ry i := hSi.1.1
        have h0 : acc.st.labels i ≠ 0 := hb.closedAdj j i hj hadj' hnavi
        exact h0 hSi.1.2
    · rw [hlabNS i hSi] at hi ⊢
      by_cases hSj : floodSet m rx ry acc.st.labels [start] j
      · exfalso
        have hnavj : navigableL m rx ry j := hSj.1.1
        have h0 : acc.st.labels j ≠ 0 := hb.closedAdj i j hi hadj hnavj
        exact h0 hSj.1.2
      · rw [hlabNS j hSj] at hj ⊢
        exact hs.adj_eq i j hi hj hadj

/-- The outer-loop accumulator after the first `k` start tiles. -/
def accAfter (m : WaterMap) (rx ry : Int) (k : Nat) : OuterAcc :=
  ((List.finRange 256).take k).foldl (cclFoldStep m rx ry) initialOuterAcc

theorem accAfter_zero (m : WaterMap) (rx ry : Int) :
    accAfter m rx ry 0 = initialOuterAcc := rfl

theorem accAfter_succ (m : WaterMap) (rx ry : Int) (k : Nat) (hk : k < 256) :
    accAfter m rx ry (k + 1) = cclFoldStep m rx ry (accAfter m rx ry k) ⟨k, hk⟩ := by
  unfold accAfter
  rw [List.take_succ]
  have hget : (List.finRange 256)[k]? = some ⟨k, hk⟩ := by
    have hlen : k < (List.finRange 256).length := by
      rw [List.length_finRange]; exact hk
    rw [List.getElem?_eq_getElem hlen]
    congr 1
    show (List.finRange 256).get ⟨k, hlen⟩ = _
    rw [List.get_finRange]
  rw [hget]
  rw [List.foldl_append]
  rfl

theorem forceUpdate_fields (m : WaterMap) (rx ry : Int) :
    (forceUpdate m rx ry).labels = (accAfter m rx ry 256).st.labels
    ∧ (forceUpdate m rx ry).edgeBits = (accAfter m rx ry 256).st.edgeBits
    ∧ (forceUpdate m rx ry).hasCrossRegionAqueducts = (accAfter m rx ry 256).st.aqueduct
    ∧ (forceUpdate m rx ry).numberOfPatches = (accAfter m rx ry 256).high := by
  have htake : (List.finRange 256).take 256 = List.finRange 256 := by
    apply List.take_of_length_le
    rw [List.length_finRange]
  unfold forceUpdate accAfter
  rw [htake]
  exact ⟨rfl, rfl, rfl, rfl⟩

theorem BaseInv_zero (m : WaterMap) (rx ry : Int) :
    BaseInv m rx ry 0 initialOuterAcc := by
  refine ⟨rfl, ?_, ?_, ?_, ?_, ?_, ?_, ?_⟩
  · intro j
    exact Nat.le_refl 0
  · intro l' h1 h2
    have hh : initialOuterAcc.high = 0 := rfl
    omega
  · intro j h _
    omega
  · intro j h
    exact absurd rfl h
  · intro i j hi _ _
    exact absurd rfl hi
  · intro s q
    constructor
    · intro h
      rw [show (initialOuterAcc.st.edgeBits s) = 0 from rfl, Nat.zero_testBit] at h
      cases h
    · rintro ⟨j, hj, -⟩
      exact absurd rfl hj
  · constructor
    · intro h
      cases h
    · rintro ⟨j, hj, -⟩
      exact absurd rfl hj

theorem SymInv_zero (m : WaterMap) (rx ry : Int) :
    SymInv m rx ry initialOuterAcc := by
  constructor
  · intro i j hi _
    exact absurd rfl hi
  · intro i j hi _ _
    exact absurd rfl hi

theorem accAfter_BaseInv (m : WaterMap) (rx ry : Int) :
    ∀ k : Nat, k ≤ 256 → BaseInv m rx ry k (accAfter m rx ry k) := by
  intro k
  induction k with
  | zero =>
    intro _
    rw [accAfter_zero]
    exact BaseInv_zero m rx ry
  | succ k ih =>
    intro hk
    have hklt : k < 256 := by omega
    rw [accAfter_succ m rx ry k hklt]
    exact cclFoldStep_BaseInv m rx ry k (accAfter m rx ry k) ⟨k, hklt⟩ rfl (ih (by omega))

theorem accAfter_SymInv (m : WaterMap) (rx ry : Int)
    (hsym : ∀ i j, adjL m rx ry i j → adjL m rx ry j i) :
    ∀ k : Nat, k ≤ 256 → SymInv m rx ry (accAfter m rx ry k) := by
  intro k
  induction k with
  | zero =>
    intro _
    rw [accAfter_zero]
    exact SymInv_zero m rx ry
  | succ k ih =>
    intro hk
    have hklt : k < 256 := by omega
    rw [accAfter_succ m rx ry k hklt]
    exact cclFoldStep_SymInv m rx ry hsym k (accAfter m rx ry k) ⟨k, hklt⟩
      (accAfter_BaseInv m rx ry k (by omega)) (ih (by omega))

/-- A tile carries navigable water tracks (non-empty navigable track
bitmask). -/
def navigableT (m : WaterMap) (t : Tile) : Prop := wt m t ≠ 0

/-- One navigable track-follow move out of tile `a` landing on tile `b`,
with `b` inside the square of region (rx, ry). -/
def stepT (m : WaterMap) (rx ry : Int) (a b : Tile) : Prop :=
  ∃ d ∈ trackdirList (wt m a), ∃ r, m.follow a d = some r ∧ r.newTile = b ∧
    containsB rx ry b = true

/-- Reachability by navigable track-follow moves whose intermediate tiles all
stay inside the square of region (rx, ry). -/
def ReachInT (m : WaterMap) (rx ry : Int) : Tile → Tile → Prop :=
  Relation.ReflTransGen (stepT m rx ry)

theorem mem_followResults (m : WaterMap) (rx ry : Int) (i : Fin 256) (r : FollowRes) :
    r ∈ followResults m rx ry i ↔
      ∃ d ∈ trackdirList (wt m (tileOfLocal rx ry i)), m.follow (tileOfLocal rx ry i) d = some r := by
  unfold followResults
  rw [List.mem_filterMap]

theorem adjL_iff_stepT (m : WaterMap) (rx ry : Int) (i j : Fin 256) :
    adjL m rx ry i j ↔ stepT m rx ry (tileOfLocal rx ry i) (tileOfLocal rx ry j) := by
  unfold adjL pushesOf stepT
  rw [List.mem_filterMap]
  constructor
  · rintro ⟨r, hr, hloc⟩
    obtain ⟨d, hd, hf⟩ := (mem_followResults m rx ry i r).mp hr
    obtain ⟨hc, heq⟩ := (localOf?_eq_some rx ry r.newTile j).mp hloc
    exact ⟨d, hd, r, hf, heq.symm, heq ▸ hc⟩
  · rintro ⟨d, hd, r, hf, heq, hc⟩
    refine ⟨r, (mem_followResults m rx ry i r).mpr ⟨d, hd, hf⟩, ?_⟩
    rw [(localOf?_eq_some rx ry r.newTile j)]
    exact ⟨heq ▸ hc, heq.symm⟩

theorem adjL_nav_src (m : WaterMap) (rx ry : Int) (i j : Fin 256)
    (h : adjL m rx ry i j) : navigableL m rx ry i := by
  obtain ⟨d, hd, -⟩ := (adjL_iff_stepT m rx ry i j).mp h
  intro h0
  rw [h0] at hd
  simp [trackdirList] at hd

theorem tileOfLocal_inj (rx ry : Int) (i j : Fin 256)
    (h : tileOfLocal rx ry i = tileOfLocal rx ry j) : i = j := by
  have hi := localNat_tileOfLocal rx ry i
  have hj := localNat_tileOfLocal rx ry j
  rw [h] at hi
  exact Fin.ext (by rw [← hi, ← hj])

theorem reachL_to_tiles (m : WaterMap) (rx ry : Int) (i j : Fin 256)
    (h : ReachL m rx ry i j) :
    ReachInT m rx ry (tileOfLocal rx ry i) (tileOfLocal rx ry j) := by
  induction h with
  | refl => exact Relation.ReflTransGen.refl
  | tail _ hstep ih =>
    exact ih.tail ((adjL_iff_stepT m rx ry _ _).mp hstep)

theorem reachT_to_local (m : WaterMap) (rx ry : Int) :
    ∀ (a b : Tile), ReachInT m rx ry a b → containsB rx ry a = true →
      (containsB rx ry b = true ∧
        ∀ (i j : Fin 256), tileOfLocal rx ry i = a → tileOfLocal rx ry j = b →
          ReachL m rx ry i j) := by
  intro a b h ha
  induction h with
  | refl =>
    refine ⟨ha, ?_⟩
    intro i j hi hj
    have : i = j := tileOfLocal_inj rx ry i j (by rw [hi, hj])
    rw [this]
    exact Relation.ReflTransGen.refl
  | tail hac hstep ih =>
    rename_i c b'
    obtain ⟨hc_in, ihr⟩ := ih
    have hb_in : containsB rx ry b' = true := by
      obtain ⟨-, -, r, -, heq, hcb⟩ := hstep
      exact hcb
    refine ⟨hb_in, ?_⟩
    intro i j hi hj
    have hkc := localNat_lt rx ry c hc_in
    have hreach := ihr i ⟨localNat rx ry c, hkc⟩ hi (tileOfLocal_localNat rx ry c hc_in)
    refine hreach.tail ?_
    rw [adjL_iff_stepT]
    rw [tileOfLocal_localNat rx ry c hc_in, hj]
    exact hstep

theorem getLabel_eq (st : RegionState) (rx ry : Int) (t : Tile)
    (h : containsB rx ry t = true) :
    getLabel st rx ry t = st.labels ⟨localNat rx ry t, localNat_lt rx ry t h⟩ := by
  unfold getLabel localOf?
  rw [dif_pos h]

theorem reachL_label_eq (m : WaterMap) (rx ry : Int) (acc : OuterAcc)
    (hbI : BaseInv m rx ry 256 acc) (hsI : SymInv m rx ry acc) (i j : Fin 256)
    (h : ReachL m rx ry i j) (hnav : navigableL m rx ry j) :
    acc.st.labels i = acc.st.labels j := by
  induction h with
  | refl => rfl
  | tail hic hstep ih =>
    rename_i c b'
    have hnavc : navigableL m rx ry c := adjL_nav_src m rx ry c b' hstep
    have h1 := ih hnavc
    have h2 : acc.st.labels c ≠ 0 := hbI.nav_lab c c.isLt hnavc
    have h3 : acc.st.labels b' ≠ 0 := hbI.nav_lab b' b'.isLt hnav
    rw [h1]
    exact hsI.adj_eq c b' h2 h3 hstep

/-- **C1.** After `ForceUpdate` on a water region: every tile of the region
with a non-empty navigable water track bitmask carries a non-zero patch
label, every tile with an empty bitmask carries label `NONE` (0), and —
provided the track-follow collaborator is symmetric within the region, as
water movement is — two navigable tiles of the region carry the same label
iff one is reachable from the other by navigable-water track-follow moves
whose intermediate tiles all stay inside the region's square. -/
theorem forceUpdate_labels_correct (m : WaterMap) (rx ry : Int)
    (hsym : ∀ a b : Tile, containsB rx ry a = true →
      stepT m rx ry a b → stepT m rx ry b a)
    (a b : Tile) (ha : containsB rx ry a = true) (hb : containsB rx ry b = true) :
    (getLabel (forceUpdate m rx ry) rx ry a ≠ 0 ↔ navigableT m a)
    ∧ (getLabel (forceUpdate m rx ry) rx ry a = 0 ↔ ¬ navigableT m a)
    ∧ (navigableT m a → navigableT m b →
        ((getLabel (forceUpdate m rx ry) rx ry a = getLabel (forceUpdate m rx ry) rx ry b)
          ↔ ReachInT m rx ry a b)) := by
  have hsymL : ∀ i j, adjL m rx ry i j → adjL m rx ry j i := by
    intro i j hadj
    rw [adjL_iff_stepT] at hadj ⊢
    exact hsym _ _ (containsB_tileOfLocal rx ry i) hadj
  have hbI := accAfter_BaseInv m rx ry 256 le_rfl
  have hsI := accAfter_SymInv m rx ry hsymL 256 le_rfl
  obtain ⟨hflab, -, -, -⟩ := forceUpdate_fields m rx ry
  set ia : Fin 256 := ⟨localNat rx ry a, localNat_lt rx ry a ha⟩ with hia
  set ib : Fin 256 := ⟨localNat rx ry b, localNat_lt rx ry b hb⟩ with hib
  have hta : tileOfLocal rx ry ia = a := tileOfLocal_localNat rx ry a ha
  have htb : tileOfLocal rx ry ib = b := tileOfLocal_localNat rx ry b hb
  have hga : getLabel (forceUpdate m rx ry) rx ry a = (accAfter m rx ry 256).st.labels ia := by
    rw [getLabel_eq (forceUpdate m rx ry) rx ry a ha, hflab]
  have hgb : getLabel (forceUpdate m rx ry) rx ry b = (accAfter m rx ry 256).st.labels ib := by
    rw [getLabel_eq (forceUpdate m rx ry) rx ry b hb, hflab]
  have hnav_a : navigableT m a ↔ navigableL m rx ry ia := by
    unfold navigableT navigableL
    rw [hta]
  have hnav_b : navigableT m b ↔ navigableL m rx ry ib := by
    unfold navigableT navigableL
    rw [htb]
  have hiff_a : getLabel (forceUpdate m rx ry) rx ry a ≠ 0 ↔ navigableT m a := by
    rw [hga, hnav_a]
    constructor
    · exact hbI.lab_nav ia
    · exact hbI.nav_lab ia ia.isLt
  refine ⟨hiff_a, ?_, ?_⟩
  · constructor
    · intro h0 hnav
      exact (hiff_a.mpr hnav) h0
    · intro hnn
      by_contra h0
      exact hnn (hiff_a.mp h0)
  · intro hna hnb
    have hla : (accAfter m rx ry 256).st.labels ia ≠ 0 :=
      hbI.nav_lab ia ia.isLt (hnav_a.mp hna)
    rw [hga, hgb]
    constructor
    · intro heq
      have hr := hsI.eq_reach ia ib hla heq
      have := reachL_to_tiles m rx ry ia ib hr
      rwa [hta, htb] at this
    · intro hreach
      obtain ⟨-, hloc⟩ := reachT_to_local m rx ry a b hreach ha
      exact reachL_label_eq m rx ry (accAfter m rx ry 256) hbI hsI ia ib
        (hloc ia ib hta htb) (hnav_b.mp hnb)

/-- Witness for C1 at a concrete map (no water anywhere): the hypotheses are
discharged and the theorem instantiated at tiles (0, 0) and (1, 0) of
region (0, 0). -/
theorem forceUpdate_labels_correct_witness :
    ((∀ a b : Tile, containsB 0 0 a = true →
        stepT { trackdirBits := fun _ => 0, follow := fun _ _ => none } 0 0 a b →
        stepT { trackdirBits := fun _ => 0, follow := fun _ _ => none } 0 0 b a)
      ∧ containsB 0 0 ((0, 0) : Tile) = true ∧ containsB 0 0 ((1, 0) : Tile) = true)
    ∧ ((getLabel (forceUpdate { trackdirBits := fun _ => 0, follow := fun _ _ => none } 0 0)
          0 0 ((0, 0) : Tile) ≠ 0
        ↔ navigableT { trackdirBits := fun _ => 0, follow := fun _ _ => none } ((0, 0) : Tile))
      ∧ (getLabel (forceUpdate { trackdirBits := fun _ => 0, follow := fun _ _ => none } 0 0)
          0 0 ((0, 0) : Tile) = 0
        ↔ ¬ navigableT { trackdirBits := fun _ => 0, follow := fun _ _ => none } ((0, 0) : Tile))
      ∧ (navigableT { trackdirBits := fun _ => 0, follow := fun _ _ => none } ((0, 0) : Tile) →
          navigableT { trackdirBits := fun _ => 0, follow := fun _ _ => none } ((1, 0) : Tile) →
          ((getLabel (forceUpdate { trackdirBits := fun _ => 0, follow := fun _ _ => none } 0 0)
              0 0 ((0, 0) : Tile)
            = getLabel (forceUpdate { trackdirBits := fun _ => 0, follow := fun _ _ => none } 0 0)
              0 0 ((1, 0) : Tile))
            ↔ ReachInT { trackdirBits := fun _ => 0, follow := fun _ _ => none } 0 0
              ((0, 0) : Tile) ((1, 0) : Tile)))) :=
  ⟨⟨fun a b _ hstep => absurd hstep (by rintro ⟨d, hd, r, hr, -⟩; cases hr),
    by decide, by decide⟩,
    forceUpdate_labels_correct { trackdirBits := fun _ => 0, follow := fun _ _ => none } 0 0
      (fun a b _ hstep => absurd hstep (by rintro ⟨d, hd, r, hr, -⟩; cases hr))
      (0, 0) (1, 0) (by decide) (by decide)⟩

/-- **C10.** After `ForceUpdate`, the set of non-zero patch labels actually
assigned to tiles is exactly the contiguous range
{1, …, `number_of_patches`} (labels are consumed only when a flood fill
assigned the current label to at least one tile), and `number_of_patches`
is 0 exactly when the region has no navigable tile. -/
theorem forceUpdate_label_range (m : WaterMap) (rx ry : Int) :
    (∀ l' : Nat, ((∃ i : Fin 256, (forceUpdate m rx ry).labels i = l' ∧ l' ≠ 0) ↔
      (1 ≤ l' ∧ l' ≤ (forceUpdate m rx ry).numberOfPatches)))
    ∧ ((forceUpdate m rx ry).numberOfPatches = 0 ↔
        ∀ i : Fin 256, ¬ navigableL m rx ry i) := by
  have hbI := accAfter_BaseInv m rx ry 256 le_rfl
  obtain ⟨hflab, -, -, hfnum⟩ := forceUpdate_fields m rx ry
  constructor
  · intro l'
    rw [hfnum, hflab]
    constructor
    · rintro ⟨i, hi, hne⟩
      have := hbI.lab_le i
      omega
    · rintro ⟨h1, h2⟩
      obtain ⟨i, hi⟩ := hbI.surj l' h1 h2
      exact ⟨i, hi, by omega⟩
  · rw [hfnum]
    constructor
    · intro h0 i hnav
      have h1 : (accAfter m rx ry 256).st.labels i ≠ 0 := hbI.nav_lab i i.isLt hnav
      have h2 := hbI.lab_le i
      omega
    · intro hnone
      by_contra h0
      obtain ⟨i, hi⟩ := hbI.surj (accAfter m rx ry 256).high (by omega) le_rfl
      exact hnone i (hbI.lab_nav i (by omega))

theorem containsB_iff (rx ry : Int) (t : Tile) :
    containsB rx ry t = true ↔
      (16 * rx ≤ t.1 ∧ t.1 < 16 * rx + 16 ∧ 16 * ry ≤ t.2 ∧ t.2 < 16 * ry + 16) := by
  simp [containsB, and_assoc]

/-- `GetEdgeTileCoordinate`: the tile of region (rx, ry) at local coordinate
`p` along side `side`. -/
def getEdgeTileCoordinate (rx ry : Int) (side : Nat) (p : Nat) : Tile :=
  match side with
  | 0 => (16 * rx, 16 * ry + p)
  | 2 => (16 * rx + 15, 16 * ry + p)
  | 3 => (16 * rx + p, 16 * ry)
  | 1 => (16 * rx + p, 16 * ry + 15)
  | _ => (16 * rx, 16 * ry)

/-- `TileAddByDiagDir`: the neighboring tile one step in direction `side`. -/
def tileByDiagDir (t : Tile) (side : Nat) : Tile :=
  match side with
  | 0 => (t.1 - 1, t.2)
  | 1 => (t.1, t.2 + 1)
  | 2 => (t.1 + 1, t.2)
  | 3 => (t.1, t.2 - 1)
  | _ => t

/-- The edge tile of region (rx, ry) at local position `p` of side `side` has
a navigable track-follow transition crossing into the adjacent region on that
side through a plain (non-aqueduct) edge. -/
def plainCrossing (m : WaterMap) (rx ry : Int) (side : Fin 4) (p : Nat) : Prop :=
  ∃ d ∈ trackdirList (wt m (getEdgeTileCoordinate rx ry side.val p)), ∃ r,
    m.follow (getEdgeTileCoordinate rx ry side.val p) d = some r ∧
    r.isBridge = false ∧
    r.newTile = tileByDiagDir (getEdgeTileCoordinate rx ry side.val p) side.val

/-- Some navigable tile of the region has an aqueduct (bridge) crossing whose
other end lies outside the region. -/
def aqueductCrossing (m : WaterMap) (rx ry : Int) : Prop :=
  ∃ t : Tile, containsB rx ry t = true ∧ ∃ d ∈ trackdirList (wt m t), ∃ r,
    m.follow t d = some r ∧ r.isBridge = true ∧ containsB rx ry r.newTile = false

theorem follow_out_localize (rx ry : Int) (src nt : Tile)
    (hsrc : containsB rx ry src = true) (hnt : containsB rx ry nt = false)
    (hdist : (nt.1 - src.1).natAbs + (nt.2 - src.2).natAbs = 1)
    (s : Fin 4) (hd : diagdirBetweenTiles src nt = s.val) :
    src = getEdgeTileCoordinate rx ry s.val (edgePosNat rx ry src s.val)
    ∧ nt = tileByDiagDir src s.val := by
  rw [containsB_iff] at hsrc
  have hnt' : ¬ (16 * rx ≤ nt.1 ∧ nt.1 < 16 * rx + 16 ∧ 16 * ry ≤ nt.2 ∧ nt.2 < 16 * ry + 16) := by
    rw [← containsB_iff]
    simp [hnt]
  unfold diagdirBetweenTiles at hd
  have hsv : s.val = 0 ∨ s.val = 1 ∨ s.val = 2 ∨ s.val = 3 := by
    have := s.isLt
    omega
  rcases hsv with hv | hv | hv | hv <;> rw [hv] at hd ⊢ <;>
    split_ifs at hd with h1 h2 h3 <;>
    simp only [getEdgeTileCoordinate, tileByDiagDir, edgePosNat, Prod.ext_iff] <;>
    norm_num <;>
    omega

theorem trackdirList_ne_zero (bits d : Nat) (hd : d ∈ trackdirList bits) : bits ≠ 0 := by
  intro h0
  rw [h0] at hd
  simp [trackdirList] at hd

theorem containsB_false_iff (rx ry : Int) (t : Tile) :
    containsB rx ry t = false ↔
      ¬ (16 * rx ≤ t.1 ∧ t.1 < 16 * rx + 16 ∧ 16 * ry ≤ t.2 ∧ t.2 < 16 * ry + 16) := by
  rw [← containsB_iff]
  cases containsB rx ry t <;> simp

theorem containsB_getEdgeTile (rx ry : Int) (s : Fin 4) (p : Nat) (hp : p < 16) :
    containsB rx ry (getEdgeTileCoordinate rx ry s.val p) = true := by
  rw [containsB_iff]
  have hsv : s.val = 0 ∨ s.val = 1 ∨ s.val = 2 ∨ s.val = 3 := by
    have := s.isLt
    omega
  rcases hsv with hv | hv | hv | hv <;> rw [hv] <;>
    simp only [getEdgeTileCoordinate] <;> omega

theorem edgeTile_out (rx ry : Int) (s : Fin 4) (p : Nat) (hp : p < 16) :
    containsB rx ry (tileByDiagDir (getEdgeTileCoordinate rx ry s.val p) s.val) = false
    ∧ diagdirBetweenTiles (getEdgeTileCoordinate rx ry s.val p)
        (tileByDiagDir (getEdgeTileCoordinate rx ry s.val p) s.val) = s.val
    ∧ edgePosNat rx ry (getEdgeTileCoordinate rx ry s.val p) s.val = p := by
  have hsv : s.val = 0 ∨ s.val = 1 ∨ s.val = 2 ∨ s.val = 3 := by
    have := s.isLt
    omega
  rcases hsv with hv | hv | hv | hv <;> rw [hv] <;>
    refine ⟨?_, ?_, ?_⟩ <;>
    simp only [getEdgeTileCoordinate, tileByDiagDir, edgePosNat, containsB_false_iff,
      diagdirBetweenTiles] <;>
    first
      | (split_ifs <;> omega)
      | omega
      | (norm_num <;> omega)

/-- **C4.** After `ForceUpdate`, and provided plain (non-bridge) track-follow
moves land on a Manhattan-distance-1 tile (the source asserts this): bit `p`
of `edge_traversability_bits[side]` is set iff the tile at local edge
position `p` on side `side` has a navigable track-follow transition crossing
into the adjacent region on that side through a plain (non-aqueduct) edge;
aqueduct crossings never set an edge bit and instead set
`has_cross_region_aqueducts`, which is set exactly when some navigable tile
of the region has an aqueduct crossing leaving the region. -/
theorem forceUpdate_edge_bits_correct (m : WaterMap) (rx ry : Int)
    (hadj : ∀ (t : Tile) (d : Nat) (r : FollowRes), m.follow t d = some r →
      r.isBridge = false → (r.newTile.1 - t.1).natAbs + (r.newTile.2 - t.2).natAbs = 1)
    (side : Fin 4) (p : Nat) (hp : p < 16) :
    ((((forceUpdate m rx ry).edgeBits side).testBit p) ↔ plainCrossing m rx ry side p)
    ∧ ((forceUpdate m rx ry).hasCrossRegionAqueducts = true ↔ aqueductCrossing m rx ry) := by
  have hbI := accAfter_BaseInv m rx ry 256 le_rfl
  obtain ⟨-, hfbits, hfaq, -⟩ := forceUpdate_fields m rx ry
  constructor
  · rw [hfbits, hbI.edge_char side p]
    constructor
    · rintro ⟨j, -, hc⟩
      obtain ⟨r, hrm, hcont, hbr, hdiag, hpos⟩ := hc
      obtain ⟨d, hd, hf⟩ := (mem_followResults m rx ry j r).mp hrm
      have hdist := hadj _ d r hf hbr
      obtain ⟨hsrc_eq, hnt_eq⟩ := follow_out_localize rx ry (tileOfLocal rx ry j) r.newTile
        (containsB_tileOfLocal rx ry j) hcont hdist side hdiag
      rw [hdiag] at hpos
      subst hpos
      refine ⟨d, ?_, r, ?_, hbr, ?_⟩
      · rw [← hsrc_eq]
        exact hd
      · rw [← hsrc_eq]
        exact hf
      · rw [← hsrc_eq]
        exact hnt_eq
    · intro hpc
      obtain ⟨d, hd, r, hf, hbr, hnt⟩ := hpc
      have hcE := containsB_getEdgeTile rx ry side p hp
      have hout := edgeTile_out rx ry side p hp
      have htE : tileOfLocal rx ry
          ⟨localNat rx ry (getEdgeTileCoordinate rx ry side.val p),
            localNat_lt rx ry _ hcE⟩ = getEdgeTileCoordinate rx ry side.val p :=
        tileOfLocal_localNat rx ry _ hcE
      refine ⟨⟨localNat rx ry (getEdgeTileCoordinate rx ry side.val p),
        localNat_lt rx ry _ hcE⟩, ?_, ?_⟩
      · apply hbI.nav_lab _ (Fin.isLt _)
        unfold navigableL
        rw [htE]
        exact trackdirList_ne_zero _ d hd
      · refine ⟨r, ?_, ?_, hbr, ?_, ?_⟩
        · rw [mem_followResults, htE]
          exact ⟨d, hd, hf⟩
        · rw [hnt]
          exact hout.1
        · rw [htE, hnt]
          exact hout.2.1
        · rw [htE, hnt, hout.2.1]
          exact hout.2.2.symm
  · rw [hfaq, hbI.aq_char]
    constructor
    · rintro ⟨j, -, hbc⟩
      obtain ⟨r, hrm, hcont, hbr⟩ := hbc
      obtain ⟨d, hd, hf⟩ := (mem_followResults m rx ry j r).mp hrm
      exact ⟨tileOfLocal rx ry j, containsB_tileOfLocal rx ry j, d, hd, r, hf, hbr, hcont⟩
    · rintro ⟨t, hct, d, hd, r, hf, hbr, hcont⟩
      have htE : tileOfLocal rx ry ⟨localNat rx ry t, localNat_lt rx ry t hct⟩ = t :=
        tileOfLocal_localNat rx ry t hct
      refine ⟨⟨localNat rx ry t, localNat_lt rx ry t hct⟩, ?_, ?_⟩
      · apply hbI.nav_lab _ (Fin.isLt _)
        unfold navigableL
        rw [htE]
        exact trackdirList_ne_zero _ d hd
      · refine ⟨r, ?_, hcont, hbr⟩
        rw [mem_followResults, htE]
        exact ⟨d, hd, hf⟩

/-- Witness for C4 at a concrete map (no water anywhere), side NE (0), local
position 3: the distance-1 hypothesis is discharged vacuously and the theorem
instantiated there. -/
theorem forceUpdate_edge_bits_correct_witness :
    ((∀ (t : Tile) (d : Nat) (r : FollowRes),
        ({ trackdirBits := fun _ => 0, follow := fun _ _ => none } : WaterMap).follow t d = some r →
        r.isBridge = false → (r.newTile.1 - t.1).natAbs + (r.newTile.2 - t.2).natAbs = 1)
      ∧ (3 : Nat) < 16)
    ∧ (((((forceUpdate { trackdirBits := fun _ => 0, follow := fun _ _ => none } 0 0).edgeBits
          (0 : Fin 4)).testBit 3) ↔
        plainCrossing { trackdirBits := fun _ => 0, follow := fun _ _ => none } 0 0 (0 : Fin 4) 3)
      ∧ ((forceUpdate { trackdirBits := fun _ => 0, follow := fun _ _ => none } 0
            0).hasCrossRegionAqueducts = true ↔
          aqueductCrossing { trackdirBits := fun _ => 0, follow := fun _ _ => none } 0 0)) :=
  ⟨⟨(fun t d r hr => by cases hr), by decide⟩,
    forceUpdate_edge_bits_correct { trackdirBits := fun _ => 0, follow := fun _ _ => none } 0 0
      (fun t d r hr => by cases hr) (0 : Fin 4) 3 (by decide)⟩

/-- `TileX` of a packed tile index, for a map whose rows are `sx` tiles wide
(`sx` is a power of two in the game, so the bitmask is a remainder). -/
def tileXP (sx t : Nat) : Nat := t % sx

/-- `TileY` of a packed tile index. -/
def tileYP (sx t : Nat) : Nat := t / sx

/-- `GetWaterRegionIndex(tile)` =
`GetWaterRegionMapSizeX() * (TileY(tile) / L) + TileX(tile) / L`. -/
def waterRegionIndexOf (sx t : Nat) : Nat :=
  (sx / 16) * (tileYP sx t / 16) + tileXP sx t / 16

/-- `TileAddByDiagDir` on the packed 32-bit tile index: the four diagonal-grid
offsets are NE = -1, SE = +sx, SW = +1, NW = -sx, with unsigned 32-bit
wraparound. -/
def tileAddByDiagDir (sx t : Nat) (d : Nat) : Nat :=
  (((t : Int) + (match d with
    | 0 => (-1 : Int)
    | 1 => (sx : Int)
    | 2 => (1 : Int)
    | 3 => -(sx : Int)
    | _ => 0)) % (4294967296 : Int)).toNat

/-- `WaterRegion::Invalidate` applied to one slot of the region array: only
the `initialized` flag changes. -/
def invalidateRegionAt (regs : Nat → RegionState) (idx : Nat) : Nat → RegionState :=
  fun i => if i = idx then { regs i with initialized := false } else regs i

/-- `InvalidateWaterRegion(tile)`: no-op on an invalid tile, otherwise
invalidate the owning region and, for each of the four diagonal directions,
the region of the adjacent tile when it differs from the owning region. -/
def invalidateWaterRegion (validTile : Nat → Bool) (sx : Nat)
    (regs : Nat → RegionState) (t : Nat) : Nat → RegionState :=
  if validTile t = false then regs
  else
    (List.range 4).foldl
      (fun rs d =>
        if waterRegionIndexOf sx (tileAddByDiagDir sx t d) ≠ waterRegionIndexOf sx t
        then invalidateRegionAt rs (waterRegionIndexOf sx (tileAddByDiagDir sx t d))
        else rs)
      (invalidateRegionAt regs (waterRegionIndexOf sx t))

theorem invalidateRegionAt_apply (regs : Nat → RegionState) (idx i : Nat) :
    invalidateRegionAt regs idx i
      = if i = idx then { regs i with initialized := false } else regs i := rfl

theorem mark_mark (r : RegionState) :
    ({ ({ r with initialized := false } : RegionState) with initialized := false } : RegionState)
      = { r with initialized := false } := rfl

theorem foldl_invalidate_apply (f : Nat → Nat) (own : Nat) :
    ∀ (ds : List Nat) (rs : Nat → RegionState) (i : Nat),
      (ds.foldl (fun rs' d => if f d ≠ own then invalidateRegionAt rs' (f d) else rs') rs) i
        = if ∃ d ∈ ds, f d ≠ own ∧ i = f d
          then { rs i with initialized := false } else rs i := by
  intro ds
  induction ds with
  | nil =>
    intro rs i
    simp
  | cons d ds ih =>
    intro rs i
    have hg : ∀ (rs' : Nat → RegionState) (i' : Nat),
        (if f d ≠ own then invalidateRegionAt rs' (f d) else rs') i'
          = if f d ≠ own ∧ i' = f d then { rs' i' with initialized := false } else rs' i' := by
      intro rs' i'
      by_cases hown : f d ≠ own
      · rw [if_pos hown, invalidateRegionAt_apply]
        by_cases hi : i' = f d
        · rw [if_pos hi, if_pos ⟨hown, hi⟩]
        · rw [if_neg hi, if_neg (fun hc => hi hc.2)]
      · rw [if_neg hown, if_neg (fun hc => hown hc.1)]
    rw [List.foldl_cons, ih, hg]
    by_cases hA : f d ≠ own ∧ i = f d
    · simp only [if_pos hA]
      have hcons : ∃ d' ∈ d :: ds, f d' ≠ own ∧ i = f d' :=
        ⟨d, List.mem_cons_self d ds, hA⟩
      rw [if_pos hcons, mark_mark]
      by_cases hB : ∃ d' ∈ ds, f d' ≠ own ∧ i = f d'
      · rw [if_pos hB]
      · rw [if_neg hB]
    · simp only [if_neg hA]
      have hsplit : (∃ d' ∈ d :: ds, f d' ≠ own ∧ i = f d')
          ↔ (∃ d' ∈ ds, f d' ≠ own ∧ i = f d') := by
        rw [List.exists_mem_cons_iff]
        constructor
        · rintro (h | h)
          · exact absurd h hA
          · exact h
        · intro h
          exact Or.inr h
      simp only [hsplit]

/-- **C2 (amended).** `InvalidateWaterRegion` on a valid tile sets
`initialized := false` on exactly the owning region and the regions owning
each of the tile's four diagonally adjacent tile indices (which is only the
owning region itself when the tile is in the region's interior), changing
nothing else of any region's state; on an invalid tile it is a no-op. -/
theorem invalidateWaterRegion_correct (validTile : Nat → Bool) (sx : Nat)
    (regs : Nat → RegionState) (t : Nat) (i : Nat) :
    invalidateWaterRegion validTile sx regs t i =
      if validTile t = true ∧ (i = waterRegionIndexOf sx t ∨
          ∃ d ∈ List.range 4, i = waterRegionIndexOf sx (tileAddByDiagDir sx t d))
      then { regs i with initialized := false }
      else regs i := by
  unfold invalidateWaterRegion
  rcases Bool.eq_false_or_eq_true (validTile t) with hvb | hvb
  · rw [hvb]
    rw [if_neg (by simp)]
    rw [foldl_invalidate_apply
      (fun d => waterRegionIndexOf sx (tileAddByDiagDir sx t d)) (waterRegionIndexOf sx t),
      invalidateRegionAt_apply]
    by_cases hio : i = waterRegionIndexOf sx t
    · simp only [if_pos hio]
      by_cases hex : ∃ d ∈ List.range 4,
          waterRegionIndexOf sx (tileAddByDiagDir sx t d) ≠ waterRegionIndexOf sx t ∧
          i = waterRegionIndexOf sx (tileAddByDiagDir sx t d)
      · rw [if_pos hex, mark_mark, if_pos ⟨by trivial, Or.inl hio⟩]
      · rw [if_neg hex, if_pos ⟨by trivial, Or.inl hio⟩]
    · simp only [if_neg hio]
      by_cases hex2 : ∃ d ∈ List.range 4, i = waterRegionIndexOf sx (tileAddByDiagDir sx t d)
      · obtain ⟨d, hd, hi⟩ := hex2
        have hex : ∃ d' ∈ List.range 4,
            waterRegionIndexOf sx (tileAddByDiagDir sx t d') ≠ waterRegionIndexOf sx t ∧
            i = waterRegionIndexOf sx (tileAddByDiagDir sx t d') :=
          ⟨d, hd, fun hc => hio (hi.trans hc), hi⟩
        rw [if_pos hex, if_pos ⟨by trivial, Or.inr ⟨d, hd, hi⟩⟩]
      · have hex : ¬ ∃ d ∈ List.range 4,
            waterRegionIndexOf sx (tileAddByDiagDir sx t d) ≠ waterRegionIndexOf sx t ∧
            i = waterRegionIndexOf sx (tileAddByDiagDir sx t d) := by
          rintro ⟨d, hd, -, hi⟩
          exact hex2 ⟨d, hd, hi⟩
        rw [if_neg hex, if_neg ?hc2]
        case hc2 =>
          rintro ⟨-, (h | h)⟩
          · exact hio h
          · exact hex2 h
  · rw [hvb]
    rw [if_pos rfl, if_neg ?hc]
    case hc =>
      rintro ⟨hc, -⟩
      cases hc

/-- A region-array entry used by the C2 counterexample: everything default,
`initialized = true`. -/
def demoRegionState : RegionState :=
  { labels := fun _ => 0, edgeBits := fun _ => 0, hasCrossRegionAqueducts := false,
    numberOfPatches := 0, initialized := true }

/-- Counterexample to C2 as stated: on a 64×64-tile map (4×4 regions),
tile 520 = (x 8, y 8) is valid and interior to region 0 (region coordinates
(0, 0)); region 1 is region (1, 0), a direct grid neighbor of the owning
region; yet after `InvalidateWaterRegion(520)` region 1 still has
`initialized = true`, while the claim demands `initialized = false` for all
four grid-neighbor regions. -/
theorem invalidateWaterRegion_counterexample :
    (fun _ => true : Nat → Bool) 520 = true
    ∧ waterRegionIndexOf 64 520 = 0
    ∧ waterRegionIndexOf 64 (8 * 64 + 24) = 1
    ∧ (invalidateWaterRegion (fun _ => true) 64 (fun _ => demoRegionState) 520 1).initialized
        = true := by
  refine ⟨rfl, by decide, by decide, ?_⟩
  decide

/-- `WaterRegionPatchDesc`: region coordinates plus patch label, the node
identity of the coarse region-graph search. -/
structure WaterRegionPatchDesc where
  x : Int
  y : Int
  label : Nat
deriving DecidableEq, Repr

/-- `YAPF_TILE_LENGTH` (value from the engine's pathfinder-type header, which
is outside the staged sources; none of the claims depends on the value). -/
def YAPF_TILE_LENGTH : Nat := 100

/-- `YAPF_TILE_CORNER_LENGTH` (same header). -/
def YAPF_TILE_CORNER_LENGTH : Nat := 71

/-- `YAPF_REGION_LENGTH = YAPF_TILE_LENGTH * WATER_REGION_EDGE_LENGTH`. -/
def YAPF_REGION_LENGTH : Nat := YAPF_TILE_LENGTH * WATER_REGION_EDGE_LENGTH

/-- `ManhattanDistance` on region-patch node keys. -/
def manhattanDistanceKeys (a b : WaterRegionPatchDesc) : Nat :=
  ((a.x - b.x).natAbs + (a.y - b.y).natAbs) * YAPF_REGION_LENGTH

/-- `CYapfRegionNodeT::GetDiagDirFromParent`: 2 = SW (x+), 0 = NE (x-),
1 = SE (y+), 3 = NW (y-), 255 = `INVALID_DIAGDIR` (`0xFF`). -/
def getDiagDirFromParent (parent child : WaterRegionPatchDesc) : Nat :=
  if child.x - parent.x > 0 ∧ child.y - parent.y = 0 then 2
  else if child.x - parent.x < 0 ∧ child.y - parent.y = 0 then 0
  else if child.x - parent.x = 0 ∧ child.y - parent.y > 0 then 1
  else if child.x - parent.x = 0 ∧ child.y - parent.y < 0 then 3
  else 255

/-- `DiagDirDifference(d0, d1) = (DiagDirDiff)((uint)(d0 - d1) % 4)`
(0 = same, 1 = 90° right, 2 = reverse, 3 = 90° left): the subtraction wraps
as an unsigned 32-bit value, and since `2^32 % 4 = 0` adding `2^32` before
the truncated subtraction reproduces it exactly for byte-sized inputs. -/
def diagDirDifference (d0 d1 : Nat) : Nat := ((4294967296 + d0) - d1) % 4

/-- The Manhattan distance plus aqueduct speed penalty of one region-graph
edge (`PfCalcCost` before the zig-zag adjustment). -/
def regionEdgeCostBase (canal_speed_frac : Nat) (parentKey key : WaterRegionPatchDesc) : Nat :=
  let c := manhattanDistanceKeys key parentKey
  if c > YAPF_REGION_LENGTH ∧ canal_speed_frac > 0
  then c + c * canal_speed_frac / (256 - canal_speed_frac)
  else c

/-- Whether `PfCalcCost` adds the zig-zag penalty: the difference of the two
consecutive directions is neither `DIAGDIRDIFF_90RIGHT` (1) nor
`DIAGDIRDIFF_90LEFT` (3). -/
def regionZigzagApplies (g parentKey key : WaterRegionPatchDesc) : Bool :=
  diagDirDifference (getDiagDirFromParent g parentKey) (getDiagDirFromParent parentKey key) ≠ 1
  && diagDirDifference (getDiagDirFromParent g parentKey) (getDiagDirFromParent parentKey key) ≠ 3

/-- The full edge cost of `CYapfCostRegionT::PfCalcCost` for a node `key`
with parent `parentKey` and optional grandparent `g`. -/
def regionEdgeCost (canal_speed_frac : Nat) (grandparent : Option WaterRegionPatchDesc)
    (parentKey key : WaterRegionPatchDesc) : Nat :=
  match grandparent with
  | none => regionEdgeCostBase canal_speed_frac parentKey key
  | some g =>
    if regionZigzagApplies g parentKey key
    then regionEdgeCostBase canal_speed_frac parentKey key + WATER_REGION_EDGE_LENGTH
    else regionEdgeCostBase canal_speed_frac parentKey key

/-- `CYapfCostRegionT::PfCalcCost`: `none` models `return false` (edge
rejected by the max-cost ceiling), `some c` models accepting with
`n.m_cost = c`. -/
def regionPfCalcCost (canal_speed_frac maxCost parentCost : Nat)
    (grandparent : Option WaterRegionPatchDesc)
    (parentKey key : WaterRegionPatchDesc) : Option Nat :=
  if maxCost > 0 ∧ parentCost + regionEdgeCost canal_speed_frac grandparent parentKey key > maxCost
  then none
  else some (parentCost + regionEdgeCost canal_speed_frac grandparent parentKey key)

/-- Counterexample to C5 as stated: with grandparent region (0,0), parent
region (1,0) and node region (0,0) (a different patch of the grandparent's
region), the direction from grandparent to parent (SW) differs from the
direction from parent to node (NE), yet the zig-zag penalty
(`WATER_REGION_EDGE_LENGTH`) IS added: the code penalizes reverse moves too,
not only straight continuation. -/
theorem regionPfCalcCost_counterexample :
    getDiagDirFromParent ⟨0, 0, 1⟩ ⟨1, 0, 1⟩ ≠ getDiagDirFromParent ⟨1, 0, 1⟩ ⟨0, 0, 2⟩
    ∧ regionPfCalcCost 0 0 0 (some ⟨0, 0, 1⟩) ⟨1, 0, 1⟩ ⟨0, 0, 2⟩
        = some (manhattanDistanceKeys ⟨0, 0, 2⟩ ⟨1, 0, 1⟩ + WATER_REGION_EDGE_LENGTH) := by
  decide

/-- **C5 (amended).** For every region-graph node with both a parent and a
grandparent whose two consecutive moves are valid grid directions, the
zig-zag penalty of one `WATER_REGION_EDGE_LENGTH` unit is added to the edge
cost exactly when the direction from parent to node equals **or exactly
reverses** the direction from grandparent to parent; only 90° turns escape
the penalty. -/
theorem regionPfCalcCost_zigzag_amended (canal_speed_frac : Nat)
    (g parentKey key : WaterRegionPatchDesc)
    (hd0 : getDiagDirFromParent g parentKey < 4)
    (hd1 : getDiagDirFromParent parentKey key < 4) :
    regionEdgeCost canal_speed_frac (some g) parentKey key
      = regionEdgeCostBase canal_speed_frac parentKey key
        + (if getDiagDirFromParent g parentKey = getDiagDirFromParent parentKey key
              ∨ (getDiagDirFromParent g parentKey + 2) % 4 = getDiagDirFromParent parentKey key
           then WATER_REGION_EDGE_LENGTH else 0) := by
  have hv0 : getDiagDirFromParent g parentKey = 0 ∨ getDiagDirFromParent g parentKey = 1
      ∨ getDiagDirFromParent g parentKey = 2 ∨ getDiagDirFromParent g parentKey = 3 := by
    omega
  have hv1 : getDiagDirFromParent parentKey key = 0 ∨ getDiagDirFromParent parentKey key = 1
      ∨ getDiagDirFromParent parentKey key = 2 ∨ getDiagDirFromParent parentKey key = 3 := by
    omega
  rcases hv0 with h0 | h0 | h0 | h0 <;> rcases hv1 with h1 | h1 | h1 | h1 <;>
    simp [regionEdgeCost, regionZigzagApplies, diagDirDifference, h0, h1]

/-- Witness for the amended C5 at a straight three-node chain (both
directions SW): the penalty is added. -/
theorem regionPfCalcCost_zigzag_amended_witness :
    (getDiagDirFromParent ⟨0, 0, 1⟩ ⟨1, 0, 1⟩ < 4
      ∧ getDiagDirFromParent ⟨1, 0, 1⟩ ⟨2, 0, 1⟩ < 4)
    ∧ regionEdgeCost 0 (some ⟨0, 0, 1⟩) ⟨1, 0, 1⟩ ⟨2, 0, 1⟩
        = regionEdgeCostBase 0 ⟨1, 0, 1⟩ ⟨2, 0, 1⟩
          + (if getDiagDirFromParent ⟨0, 0, 1⟩ ⟨1, 0, 1⟩
                = getDiagDirFromParent ⟨1, 0, 1⟩ ⟨2, 0, 1⟩
              ∨ (getDiagDirFromParent ⟨0, 0, 1⟩ ⟨1, 0, 1⟩ + 2) % 4
                = getDiagDirFromParent ⟨1, 0, 1⟩ ⟨2, 0, 1⟩
             then WATER_REGION_EDGE_LENGTH else 0) :=
  ⟨⟨by decide, by decide⟩,
    regionPfCalcCost_zigzag_amended 0 ⟨0, 0, 1⟩ ⟨1, 0, 1⟩ ⟨2, 0, 1⟩ (by decide) (by decide)⟩

/-- The collaborator-supplied inputs of one `CYapfCostShipT::PfCalcCost`
edge evaluation: trackdir geometry of the move, the curve-penalty settings,
docking-tile occupancy, tiles skipped by the follower, and the water class
and ship speed fractions (both `uint8`). -/
structure ShipEdgeEnv where
  isDiagonalTd : Bool
  crosses90 : Bool
  isNextTd : Bool
  curve90penalty : Nat
  curve45penalty : Nat
  isDockingTile : Bool
  shipCount : Nat
  tilesSkipped : Nat
  isSea : Bool
  oceanSpeedFrac : Nat
  canalSpeedFrac : Nat
deriving DecidableEq, Repr

/-- `CYapfCostShipT::CurveCost`: 90° crossing → 90° penalty; otherwise a 45°
penalty unless the trackdir continues straight. -/
def shipCurveCost (e : ShipEdgeEnv) : Nat :=
  if e.crosses90 then e.curve90penalty
  else if e.isNextTd = false then e.curve45penalty
  else 0

/-- The edge cost `c` accumulated by `CYapfCostShipT::PfCalcCost`: base tile
or corner length, curve penalty, docking-tile occupancy penalty, skipped-tile
cost for aqueducts, and the ocean/canal speed-fraction penalty. -/
def shipEdgeCost (e : ShipEdgeEnv) : Nat :=
  (if e.isDiagonalTd then YAPF_TILE_LENGTH else YAPF_TILE_CORNER_LENGTH)
  + shipCurveCost e
  + (if e.isDockingTile then e.shipCount * 3 * YAPF_TILE_LENGTH else 0)
  + YAPF_TILE_LENGTH * e.tilesSkipped
  + (if 0 < (if e.isSea then e.oceanSpeedFrac else e.canalSpeedFrac)
     then YAPF_TILE_LENGTH * (1 + e.tilesSkipped)
        * (if e.isSea then e.oceanSpeedFrac else e.canalSpeedFrac)
        / (256 - (if e.isSea then e.oceanSpeedFrac else e.canalSpeedFrac))
     else 0)

/-- `CYapfCostShipT::PfCalcCost`: `none` models `return false` (the max-cost
ceiling rejects the edge), `some c` models accepting with `n.cost = c`. -/
def shipPfCalcCost (maxCost parentCost : Nat) (e : ShipEdgeEnv) : Option Nat :=
  if maxCost > 0 ∧ parentCost + shipEdgeCost e > maxCost then none
  else some (parentCost + shipEdgeCost e)

/-- **C6.** With a configured ceiling (`max_cost > 0`), `PfCalcCost` rejects
an edge iff the parent's accumulated cost plus this edge's cost strictly
exceeds the ceiling; an accepted edge sets the node cost to exactly the
parent's cost plus the edge cost; with `max_cost = 0` no edge is ever
rejected. -/
theorem shipPfCalcCost_ceiling (maxCost parentCost : Nat) (e : ShipEdgeEnv) :
    (shipPfCalcCost maxCost parentCost e = none ↔
      (maxCost > 0 ∧ parentCost + shipEdgeCost e > maxCost))
    ∧ (∀ r, shipPfCalcCost maxCost parentCost e = some r → r = parentCost + shipEdgeCost e)
    ∧ (maxCost = 0 → shipPfCalcCost maxCost parentCost e
        = some (parentCost + shipEdgeCost e)) := by
  unfold shipPfCalcCost
  by_cases h : maxCost > 0 ∧ parentCost + shipEdgeCost e > maxCost
  · rw [if_pos h]
    refine ⟨⟨fun _ => h, fun _ => rfl⟩, ?_, ?_⟩
    · intro r hr
      cases hr
    · intro h0
      omega
  · rw [if_neg h]
    refine ⟨⟨(fun hc => by cases hc), fun hc => absurd hc h⟩, ?_, ?_⟩
    · intro r hr
      cases hr
      rfl
    · intro _
      rfl

/-- Witness for C6 at concrete inputs: ceiling 150, parent cost 100, a plain
diagonal edge (edge cost 100), so the edge is rejected. -/
theorem shipPfCalcCost_ceiling_witness :
    (shipPfCalcCost 150 100
        { isDiagonalTd := true, crosses90 := false, isNextTd := true,
          curve90penalty := 0, curve45penalty := 0, isDockingTile := false,
          shipCount := 0, tilesSkipped := 0, isSea := true,
          oceanSpeedFrac := 0, canalSpeedFrac := 0 } = none ↔
      ((150 : Nat) > 0 ∧ 100 + shipEdgeCost
        { isDiagonalTd := true, crosses90 := false, isNextTd := true,
          curve90penalty := 0, curve45penalty := 0, isDockingTile := false,
          shipCount := 0, tilesSkipped := 0, isSea := true,
          oceanSpeedFrac := 0, canalSpeedFrac := 0 } > 150))
    ∧ (∀ r, shipPfCalcCost 150 100
        { isDiagonalTd := true, crosses90 := false, isNextTd := true,
          curve90penalty := 0, curve45penalty := 0, isDockingTile := false,
          shipCount := 0, tilesSkipped := 0, isSea := true,
          oceanSpeedFrac := 0, canalSpeedFrac := 0 } = some r →
        r = 100 + shipEdgeCost
        { isDiagonalTd := true, crosses90 := false, isNextTd := true,
          curve90penalty := 0, curve45penalty := 0, isDockingTile := false,
          shipCount := 0, tilesSkipped := 0, isSea := true,
          oceanSpeedFrac := 0, canalSpeedFrac := 0 })
    ∧ ((150 : Nat) = 0 → shipPfCalcCost 150 100
        { isDiagonalTd := true, crosses90 := false, isNextTd := true,
          curve90penalty := 0, curve45penalty := 0, isDockingTile := false,
          shipCount := 0, tilesSkipped := 0, isSea := true,
          oceanSpeedFrac := 0, canalSpeedFrac := 0 }
          = some (100 + shipEdgeCost
        { isDiagonalTd := true, crosses90 := false, isNextTd := true,
          curve90penalty := 0, curve45penalty := 0, isDockingTile := false,
          shipCount := 0, tilesSkipped := 0, isSea := true,
          oceanSpeedFrac := 0, canalSpeedFrac := 0 })) :=
  shipPfCalcCost_ceiling 150 100
    { isDiagonalTd := true, crosses90 := false, isNextTd := true,
      curve90penalty := 0, curve45penalty := 0, isDockingTile := false,
      shipCount := 0, tilesSkipped := 0, isSea := true,
      oceanSpeedFrac := 0, canalSpeedFrac := 0 }

/-- **C7.** The speed-penalty surcharge of a fine-pathfinder edge is exactly
`YAPF_TILE_LENGTH * (1 + tiles_skipped) * f / (256 - f)` under integer
division when the effective speed fraction `f` is positive, and zero when
`f = 0`: the edge cost equals the cost of the same edge with zero speed
fractions plus that surcharge. -/
theorem shipEdgeCost_speed_penalty (e : ShipEdgeEnv) :
    shipEdgeCost e
      = shipEdgeCost { e with oceanSpeedFrac := 0, canalSpeedFrac := 0 }
        + (if 0 < (if e.isSea then e.oceanSpeedFrac else e.canalSpeedFrac)
           then YAPF_TILE_LENGTH * (1 + e.tilesSkipped)
              * (if e.isSea then e.oceanSpeedFrac else e.canalSpeedFrac)
              / (256 - (if e.isSea then e.oceanSpeedFrac else e.canalSpeedFrac))
           else 0) := by
  unfold shipEdgeCost shipCurveCost
  cases e.isSea <;> simp

/-- `ReverseTrackdir`: XOR with 8 flips the direction bit of a trackdir. -/
def reverseTrackdir (td : Nat) : Nat := td ^^^ 8

/-- `TrackdirToTrackdirBits`: the singleton trackdir bitmask. -/
def trackdirToTrackdirBits (td : Nat) : Nat := 1 <<< td

/-- The forward and reverse trackdir bitmasks built by
`CYapfFollowShipT::FindNearestDepot`: `search_both_ways = (max_penalty == 0)`,
forward always, reverse only when searching both ways. -/
def findNearestDepotDirs (maxPenalty forwardDir : Nat) : Nat × Nat :=
  (trackdirToTrackdirBits forwardDir,
    if maxPenalty = 0 then trackdirToTrackdirBits (reverseTrackdir forwardDir) else 0)

/-- `pf.SetOrigin(v->tile, forward_dirs | reverse_dirs)` inside
`ChooseShipTrack`: the origin trackdir-bit set of the search. -/
def chooseShipTrackOriginBits (forwardDirs reverseDirs : Nat) : Nat :=
  forwardDirs ||| reverseDirs

/-- The returned `FindDepotData.tile` of `FindNearestDepot`: stays
`INVALID_TILE` (modelled `none`) unless the search reported `path_found`. -/
def findNearestDepotResult (pathFound : Bool) (foundTile : Nat) : Option Nat :=
  if pathFound then some foundTile else none

theorem testBit_tdBits (td b : Nat) :
    (trackdirToTrackdirBits td).testBit b = decide (b = td) := by
  unfold trackdirToTrackdirBits
  have h : ((1 <<< td).testBit b ↔ b = td) := by
    have h0 := testBit_or_shift 0 td b
    rw [Nat.zero_or] at h0
    simp only [Nat.zero_testBit] at h0
    simpa using h0
  rw [Bool.eq_iff_iff, h]
  simp

theorem reverseTrackdir_ne (td : Nat) : reverseTrackdir td ≠ td := by
  unfold reverseTrackdir
  intro h
  have h3 := congrArg (fun n => Nat.testBit n 3) h
  simp only [Nat.testBit_xor] at h3
  revert h3
  cases td.testBit 3 <;> decide

/-- **C8.** In `FindNearestDepot`, the origin trackdir set always contains
the vehicle's forward trackdir; it contains the exact reverse trackdir iff
the cost ceiling `max_penalty` is 0 (with a positive ceiling only the
forward trackdir seeds the search); and when the search finds no depot
within the budget, the returned `FindDepotData` reports no depot tile. -/
theorem findNearestDepot_correct (maxPenalty forwardDir foundTile : Nat) :
    (chooseShipTrackOriginBits (findNearestDepotDirs maxPenalty forwardDir).1
        (findNearestDepotDirs maxPenalty forwardDir).2).testBit forwardDir = true
    ∧ ((chooseShipTrackOriginBits (findNearestDepotDirs maxPenalty forwardDir).1
        (findNearestDepotDirs maxPenalty forwardDir).2).testBit (reverseTrackdir forwardDir)
        = decide (maxPenalty = 0))
    ∧ (chooseShipTrackOriginBits (findNearestDepotDirs maxPenalty forwardDir).1
        (findNearestDepotDirs maxPenalty forwardDir).2
        = if maxPenalty = 0
          then trackdirToTrackdirBits forwardDir
            ||| trackdirToTrackdirBits (reverseTrackdir forwardDir)
          else trackdirToTrackdirBits forwardDir)
    ∧ findNearestDepotResult false foundTile = none := by
  unfold chooseShipTrackOriginBits findNearestDepotDirs findNearestDepotResult
  by_cases h0 : maxPenalty = 0
  · simp only [if_pos h0]
    refine ⟨?_, ?_, ?_, ?_⟩
    · rw [Nat.testBit_or, testBit_tdBits, testBit_tdBits]
      simp
    · rw [Nat.testBit_or, testBit_tdBits, testBit_tdBits]
      simp [h0, reverseTrackdir_ne forwardDir]
    · simp
    · rfl
  · simp only [if_neg h0]
    refine ⟨?_, ?_, ?_, ?_⟩
    · rw [Nat.or_zero, testBit_tdBits]
      simp
    · rw [Nat.or_zero, testBit_tdBits]
      simp [h0, reverseTrackdir_ne forwardDir]
    · rw [Nat.or_zero]
    · rfl

/- ### C3: corridor restriction in `PfFollowNode` / `RestrictSearch` -/

/-- `WaterRegionDesc`: the coordinates of a water region, without a patch
label.  `GetWaterRegionInfo(tile)` in `water_regions.cpp` constructs exactly
`WaterRegionDesc{ GetWaterRegionX(tile), GetWaterRegionY(tile) }`, and the
corridor in `CYapfFollowShipT` is a `std::vector<WaterRegionDesc>`. -/
structure WaterRegionDesc where
  x : Int
  y : Int
deriving DecidableEq, Repr

/-- Slicing a `WaterRegionPatchDesc` down to its base `WaterRegionDesc`,
as happens implicitly in `RestrictSearch` when a `WaterRegionPatchDesc`
path entry is pushed into the `std::vector<WaterRegionDesc>` corridor. -/
def toWaterRegionDesc (p : WaterRegionPatchDesc) : WaterRegionDesc :=
  ⟨p.x, p.y⟩

/-- `RestrictSearch`: clears the corridor and pushes every path entry
(each converted to a plain `WaterRegionDesc`). -/
def restrictSearch (path : List WaterRegionPatchDesc) : List WaterRegionDesc :=
  path.map toWaterRegionDesc

/-- The corridor filter in `PfFollowNode`: successors on `destTile` are
added iff the corridor is empty or `GetWaterRegionInfo(F.new_tile)`
(passed here as `dest`) occurs in the corridor. -/
def pfFollowNodeAllowed (corridor : List WaterRegionDesc) (dest : WaterRegionDesc) : Bool :=
  corridor.isEmpty || corridor.contains dest

/-- **C3 counterexample.** A non-empty corridor coming from the one-entry
patch path `[⟨0,0,1⟩]` lets `PfFollowNode` expand onto a tile whose
region-patch pair is `⟨0,0,2⟩` — same region, different patch label — even
though that pair is not a member of the path: the corridor stores only
`WaterRegionDesc` (region coordinates), so the patch label is dropped and
never compared. -/
theorem pfFollowNode_corridor_counterexample :
    restrictSearch [⟨0, 0, 1⟩] ≠ []
    ∧ pfFollowNodeAllowed (restrictSearch [⟨0, 0, 1⟩])
        (toWaterRegionDesc ⟨0, 0, 2⟩) = true
    ∧ (⟨0, 0, 2⟩ : WaterRegionPatchDesc) ∉ [(⟨0, 0, 1⟩ : WaterRegionPatchDesc)] := by
  refine ⟨by decide, by decide, by decide⟩

/-- **C3 amended.** With the corridor built by `RestrictSearch` from the
lookahead path, `PfFollowNode` allows a destination tile iff the path is
empty or some path entry matches the destination's *region coordinates*
(the patch label is sliced away by the `std::vector<WaterRegionDesc>`
corridor and plays no role in the membership test). -/
theorem pfFollowNode_corridor_amended (path : List WaterRegionPatchDesc)
    (q : WaterRegionPatchDesc) :
    pfFollowNodeAllowed (restrictSearch path) (toWaterRegionDesc q) = true ↔
      path = [] ∨ ∃ r ∈ path, r.x = q.x ∧ r.y = q.y := by
  simp only [pfFollowNodeAllowed, restrictSearch, Bool.or_eq_true,
    List.isEmpty_eq_true, List.map_eq_nil_iff, List.elem_iff,
    List.mem_map, toWaterRegionDesc, WaterRegionDesc.mk.injEq]
